import Mathlib

/-!
A shallow embedding of the `puzzlebb` backtracking puzzle solver
(`src/solvers/baseline.ts`, the bit-packed-key variant, and the string-key
variant embedded in `src/puzzle/validate.ts`), together with the constraint
validator `validatePuzzle` (`src/puzzle/validate.ts`).

Modelling conventions:
* JS strings for the four category labels become the inductive type `Word`;
  the parser (`tokenize`/`parsePuzzle`) works on genuine strings, and only
  converts to `Word` after the source's label validation has succeeded, so
  the conversion is a bijection on the values that ever reach the solver.
* JS numbers used as counters become `Int` (the source never exceeds small
  integer ranges there); the 32-bit coercions that JS bitwise operators
  perform inside `encodeState` are modelled exactly by `toInt32`/`toUint32`.
* The solver's in-place mutable state (`XCapacity`, `BXCapacity`, `BCount`,
  `finalArrangement`, `memo`) becomes an explicit `SearchSt` record threaded
  through the recursion.  `hist` is a ghost field recording every counter
  snapshot the source creates (the initial state, each state after placing
  an X word and after placing a 3-word permutation); it never influences
  control flow and exists to let reachability statements be expressed.
* Both state-key strategies are obtained from one generic solver,
  parameterised by the key encoder, exactly as the two source files differ
  only in their `encodeState`.  The bit-packed key is kept as the `Int`
  value `s`; the source renders it with `s.toString(36)`, which is injective
  on integers, so using `s` itself as the map key is observationally
  identical.  The string strategy builds the literal key string.
-/

namespace PuzzleBB

/-- The four word-category labels of the puzzle: `A` (plain), `B` (flagged),
`AX` (marked), `BX` (flagged and marked). -/
inductive Word where
  | A | B | AX | BX
deriving DecidableEq, Repr, Fintype

instance : Inhabited Word := ⟨Word.A⟩

/-- Position of a label in the source's `ORDER = ["BX", "AX", "B", "A"]`,
used to sort each row into canonical order. -/
def Word.orderRank : Word → Nat
  | .BX => 0
  | .AX => 1
  | .B => 2
  | .A => 3

/-- Source `w.includes("B")`: the word carries the flagged property. -/
def Word.hasB : Word → Bool
  | .B => true
  | .BX => true
  | _ => false

/-- The word is an X-word (marked), i.e. `AX` or `BX`. -/
def Word.isX : Word → Bool
  | .AX => true
  | .BX => true
  | _ => false

/-- Rank of a label in ASCII/lexicographic order, matching what
`localeCompare` yields on the four labels (`A < AX < B < BX`); used by the
source to cluster duplicate words before enumerating permutations. -/
def Word.lexRank : Word → Nat
  | .A => 0
  | .AX => 1
  | .B => 2
  | .BX => 3

/-- The two error classes of the solver: `malformed` covers the three input
validation failures (wrong line count, wrong word count, unrecognized
label); `noSolution` is the terminal "No valid solution found" outcome. -/
inductive Err where
  | malformed | noSolution
deriving DecidableEq, Repr

/-- Remove leading and trailing whitespace characters (JS `trim`),
modelled on the string's character sequence. -/
def trimChars (cs : List Char) : List Char :=
  ((cs.dropWhile (·.isWhitespace)).reverse.dropWhile (·.isWhitespace)).reverse

/-- Split a character sequence at every character satisfying `p`
(JS `split` against a single-character pattern: adjacent separators
produce empty groups). -/
def splitChars (p : Char → Bool) (cs : List Char) : List (List Char) :=
  cs.foldr
    (fun c acc =>
      if p c then [] :: acc
      else
        match acc with
        | [] => [[c]]
        | g :: gs => (c :: g) :: gs)
    [[]]

/-- Source `line.trim().split(/\s+/)`.  On a trimmed non-empty string this
yields the maximal runs of non-whitespace characters; JS's `split` on the
empty string yields `[""]`.  (Splitting on single whitespace characters and
discarding the empty groups is the same as splitting on `\s+` for a
trimmed string.) -/
def tokenize (line : String) : List String :=
  let t := trimChars line.data
  if t = [] then [""]
  else ((splitChars (·.isWhitespace) t).map (fun g => String.mk g)).filter (fun s => s ≠ "")

/-- Is the token one of the four recognized labels? (`["A","B","AX","BX"].includes(w)`) -/
def isLabel (s : String) : Bool :=
  s = "A" || s = "B" || s = "AX" || s = "BX"

/-- Conversion of a validated token to its `Word`; the default branch is
never reached on tokens that passed `isLabel`. -/
def wordOf (s : String) : Word :=
  if s = "A" then .A
  else if s = "B" then .B
  else if s = "AX" then .AX
  else .BX

/-- A row of four words, in the canonical sorted order the source produces. -/
structure Row where
  w0 : Word
  w1 : Word
  w2 : Word
  w3 : Word
deriving DecidableEq, Repr

/-- Indexing a row by column slot. -/
def Row.get (r : Row) : Fin 4 → Word
  | 0 => r.w0
  | 1 => r.w1
  | 2 => r.w2
  | 3 => r.w3

def Row.toList (r : Row) : List Word := [r.w0, r.w1, r.w2, r.w3]

/-- The source's per-line normalization: sort the four words by `ORDER.indexOf`.
`ORDER.indexOf` is injective on the four labels, so ties in the JS sort are
identical words and any sorting algorithm produces the same list. -/
def sortRow (ws : List Word) : Row :=
  match List.insertionSort (fun a b => a.orderRank ≤ b.orderRank) ws with
  | [a, b, c, d] => ⟨a, b, c, d⟩
  | _ => ⟨.A, .A, .A, .A⟩

/-- A parsed puzzle: sixteen canonically sorted rows. -/
structure Puzzle where
  rows : Fin 16 → Row
deriving DecidableEq

/-- The solver's input validation and normalization: exactly 16 lines,
each tokenizing into exactly 4 words, each a recognized label; rows sorted
into canonical order.  Any failure is the `MalformedInput` class. -/
def parsePuzzle (input : List String) : Except Err Puzzle :=
  if input.length = 16 then
    let toks := input.map tokenize
    if toks.all (fun t => t.length = 4) then
      if toks.all (fun t => t.all isLabel) then
        let wss := toks.map (fun t => t.map wordOf)
        .ok ⟨fun i => sortRow (wss.getD i.val [])⟩
      else .error .malformed
    else .error .malformed
  else .error .malformed

/-- Word in slot `k` of row `r`. -/
def Puzzle.wordAt (P : Puzzle) (r : Fin 16) (k : Fin 4) : Word :=
  (P.rows r).get k

/-- Source `xIsBX[i] = rows[i][0] === "BX"`. -/
def Puzzle.xIsBX (P : Puzzle) (r : Fin 16) : Bool :=
  P.wordAt r 0 = Word.BX

/-- Source `hasB[i][k] = rows[i][k].includes("B")`. -/
def Puzzle.hasBAt (P : Puzzle) (r : Fin 16) (k : Fin 4) : Bool :=
  (P.wordAt r k).hasB

/-- Source `totalB[i]`: number of flagged words in row `i`. -/
def Puzzle.totalBRow (P : Puzzle) (r : Fin 16) : Nat :=
  (P.rows r).toList.countP (·.hasB)

/-- Source `totalBInPuzzle`: flagged words in the whole puzzle (as a JS number,
modelled as `Int` since the pruning rule subtracts 12 from it). -/
def Puzzle.totB (P : Puzzle) : Int :=
  ((List.finRange 16).map (fun (r : Fin 16) => (P.totalBRow r : Int))).sum

/-- Sort key of the row-ordering comparator: `BX` rows first, then ascending
`totalB` (the comparator `(i, j) => xIsBX ? ... : totalB[i] - totalB[j]`
realizes exactly this lexicographic key; `totalBRow ≤ 4 < 8`). -/
def Puzzle.orderKey (P : Puzzle) (r : Fin 16) : Nat :=
  (if P.xIsBX r then 0 else 1) * 8 + P.totalBRow r

/-- Source `rowOrder`: the row visitation order, computed once before the search.
JS `Array.prototype.sort` is stable and the comparator is a total preorder,
so its result is the unique stable sort by the key, which is what
`List.insertionSort` computes. -/
def Puzzle.rowOrder (P : Puzzle) : List (Fin 16) :=
  List.insertionSort (fun i j => P.orderKey i ≤ P.orderKey j) (List.finRange 16)

/-- Source `rowOrder[pos]` (the default is never reached: `rowOrder` has 16
entries and the solver only indexes it at `pos < 16`). -/
def Puzzle.rowAt (P : Puzzle) (pos : Nat) : Fin 16 :=
  (P.rowOrder).getD pos 0

/-! ### Deduplicated permutations of the three non-X words

`uniquePermutationsOf3` sorts the three (word, slot) pairs by word
(`localeCompare`, stable) and then backtracks over the three positions,
skipping a position whose word equals the previous position's word when
that previous position is currently unused. -/

/-- One level of the source's `backtrack()` loop: iterate `i` over `0..2`,
skip used or duplicate-skipped positions, recurse with `used[i] := true`
and the slot index appended to `perm`.  `fuel` counts the remaining levels
(`3 - perm.length`); results are collected in DFS order, as the source's
`result.push` does. -/
def btPerms (combined : List (Word × Fin 4)) :
    Nat → List Bool → List (Fin 4) → List (List (Fin 4))
  | 0, _, perm => [perm]
  | fuel + 1, used, perm =>
    (List.range 3).foldl
      (fun acc i =>
        if used.getD i true then acc
        else if decide (0 < i) && !(used.getD (i - 1) true)
            && decide ((combined.getD i default).1 = (combined.getD (i - 1) default).1) then acc
        else
          acc ++ btPerms combined fuel (used.set i true)
            (perm ++ [(combined.getD i default).2]))
      []

/-- Source `uniquePermutationsOf3(words, idxs)` for the row's slots 1..3:
sort the pairs by word, then run the dedup backtracking. -/
def uniquePerms3 (w1 w2 w3 : Word) : List (List (Fin 4)) :=
  let combined := [(w1, (1 : Fin 4)), (w2, (2 : Fin 4)), (w3, (3 : Fin 4))]
  let sorted := List.insertionSort (fun a b => a.1.lexRank ≤ b.1.lexRank) combined
  btPerms sorted 3 [false, false, false] []

/-- Source `rowNonXPerms[i]`: the deduplicated permutations of row `i`'s slots 1..3
(the X word always sits in slot 0 after canonical sorting). -/
def Puzzle.nonXPerms (P : Puzzle) (r : Fin 16) : List (List (Fin 4)) :=
  uniquePerms3 (P.wordAt r 1) (P.wordAt r 2) (P.wordAt r 3)

/-! ### JS 32-bit bitwise arithmetic

ECMAScript `|`, `&` and `<<` coerce their operands with `ToInt32`
(`ToUint32` for the shift count, of which only the low five bits are used)
and produce an `Int32` result. -/

/-- ECMAScript `ToUint32`: the number's low 32 bits as a natural number. -/
def toUint32 (x : Int) : Nat := (x.emod (2 ^ 32)).toNat

/-- ECMAScript `ToInt32`: the number's low 32 bits, interpreted as a signed 32-bit value. -/
def toInt32 (x : Int) : Int :=
  let u := toUint32 x
  if u < 2 ^ 31 then (u : Int) else (u : Int) - 2 ^ 32

/-- JS `a | b`. -/
def jsOr (a b : Int) : Int := toInt32 (Nat.lor (toUint32 a) (toUint32 b))

/-- JS `a & b`. -/
def jsAnd (a b : Int) : Int := toInt32 (Nat.land (toUint32 a) (toUint32 b))

/-- JS `a << n` (for the literal non-negative shift counts the source uses):
the shift count is reduced modulo 32 and the result truncated to `Int32`. -/
def jsShl (a : Int) (n : Nat) : Int := toInt32 ((toUint32 a) <<< (n % 32))

/-! ### The search state -/

/-- A per-column integer vector (`XCapacity`, `BXCapacity`, `BCount`). -/
def Vec4 := Fin 4 → Int

instance : DecidableEq Vec4 := inferInstanceAs (DecidableEq (Fin 4 → Int))

/-- The three per-column counter arrays of the search. -/
structure Ctrs where
  xcap : Vec4
  bxcap : Vec4
  bcnt : Vec4
deriving DecidableEq

/-- The counters at the start of a `solve` call:
`XCapacity = [4,4,4,4]`, `BXCapacity = [1,1,1,1]`, `BCount = [0,0,0,0]`. -/
def initCtrs : Ctrs :=
  { xcap := fun _ => 4, bxcap := fun _ => 1, bcnt := fun _ => 0 }

/-- The full state threaded through the recursion: the counters, the
`finalArrangement` grid (cells `none` until first written), the memo table
(an association list behaving like the source's `Map`: `set` conses a
binding, `get` finds the most recent one), and the ghost trace `hist` of
every counter snapshot the search creates. -/
structure SearchSt (κ : Type) where
  ctrs : Ctrs
  arr : Fin 16 → Fin 4 → Option Word
  memo : List (κ × Bool)
  hist : List Ctrs

/-- Source `memo.get(key)` on the association list. -/
def mfind {κ : Type} [DecidableEq κ] : List (κ × Bool) → κ → Option Bool
  | [], _ => none
  | (k, b) :: rest, key => if key = k then some b else mfind rest key

/-! ### The two state-key encoders -/

/-- Strategy A (`src/puzzle/validate.ts`): the delimited text key
`pos + "|" + XCapacity.join(",") + "|" + BXCapacity.join(",") + "|" + BCount.join(",")`. -/
def encodeStateA (pos : Nat) (c : Ctrs) : String :=
  let join4 : Vec4 → String := fun v =>
    toString (v 0) ++ "," ++ toString (v 1) ++ "," ++ toString (v 2) ++ "," ++ toString (v 3)
  toString pos ++ "|" ++ join4 c.xcap ++ "|" ++ join4 c.bxcap ++ "|" ++ join4 c.bcnt

/-- Strategy B (`src/solvers/baseline.ts`): the bit-packed key.  Mirrors the
source statement for statement; every `|`, `&`, `<<` is the JS 32-bit
operation.  (The source finally renders `s.toString(36)`, injective on
integers, so the integer itself serves as the key.) -/
def encodeStateB (pos : Nat) (ctrs : Ctrs) : Int :=
  -- 1) BCount: 5 bits per column, column c at bit 5*c.
  let s : Int := 0
  let s := (List.finRange 4).foldl
    (fun s c => jsOr s (jsShl (jsAnd (ctrs.bcnt c) 0x1f) (5 * c.val))) s
  -- 2) BXCapacity: 1 bit per column, shifted to bits 20..23.
  let bxPart := (List.finRange 4).foldl
    (fun bx c => jsOr bx (jsShl (jsAnd (ctrs.bxcap c) 0x1) c.val)) 0
  let s := jsOr s (jsShl bxPart 20)
  -- 3) XCapacity: 3 bits per column, shifted to bit 24 on.
  let xPart := (List.finRange 4).foldl
    (fun x c => jsOr x (jsShl (jsAnd (ctrs.xcap c) 0x7) (3 * c.val))) 0
  let s := jsOr s (jsShl xPart 24)
  -- 4) pos "<< 36".
  let s := jsOr s (jsShl (jsAnd (pos : Int) 0x1f) 36)
  s

/-! ### The backtracking search -/

/-- The column list `0..3` the source loops over. -/
def colList : List (Fin 4) := [0, 1, 2, 3]

/-- Record the current counters in the ghost trace (most recent first). -/
def pushHist {κ : Type} (st : SearchSt κ) : SearchSt κ :=
  { st with hist := st.ctrs :: st.hist }

/-- Overwrite the `BCount` array (the source's per-permutation revert loop
`for c: BCount[c] = oldB2[c]`). -/
def setBcnt {κ : Type} (st : SearchSt κ) (b : Vec4) : SearchSt κ :=
  { st with ctrs := { st.ctrs with bcnt := b } }

/-- Place the X word of row `rIdx` into column `colX`: write the cell,
decrement `XCapacity[colX]`, decrement `BXCapacity[colX]` when the X word is
`BX`, increment `BCount[colX]` when the X word is flagged. -/
def placeX {κ : Type} (P : Puzzle) (rIdx : Fin 16) (colX : Fin 4) (isBX : Bool)
    (st : SearchSt κ) : SearchSt κ :=
  { st with
    arr := Function.update st.arr rIdx
      (Function.update (st.arr rIdx) colX (some (P.wordAt rIdx 0)))
    ctrs :=
      { xcap := Function.update st.ctrs.xcap colX (st.ctrs.xcap colX - 1)
        bxcap :=
          if isBX then Function.update st.ctrs.bxcap colX (st.ctrs.bxcap colX - 1)
          else st.ctrs.bxcap
        bcnt :=
          if P.hasBAt rIdx 0 then Function.update st.ctrs.bcnt colX (st.ctrs.bcnt colX + 1)
          else st.ctrs.bcnt } }

/-- Place one non-X word (slot `wIdx` of row `rIdx`) into column `c`:
write the cell and increment `BCount[c]` when the word is flagged. -/
def placeWord {κ : Type} (P : Puzzle) (rIdx : Fin 16) (st : SearchSt κ)
    (wc : Fin 4 × Fin 4) : SearchSt κ :=
  { st with
    arr := Function.update st.arr rIdx
      (Function.update (st.arr rIdx) wc.2 (some (P.wordAt rIdx wc.1)))
    ctrs :=
      { st.ctrs with
        bcnt :=
          if P.hasBAt rIdx wc.1 then
            Function.update st.ctrs.bcnt wc.2 (st.ctrs.bcnt wc.2 + 1)
          else st.ctrs.bcnt } }

/-- The inner `for (let i3 = 0; ...)` loop placing the three permuted words. -/
def placeWords {κ : Type} (P : Puzzle) (rIdx : Fin 16)
    (ps : List (Fin 4 × Fin 4)) (st : SearchSt κ) : SearchSt κ :=
  ps.foldl (placeWord P rIdx) st

/-- Source `canStillReach4B(c, rowsLeft)`: `BCount[c] + rowsLeft >= 4`. -/
def canStillReach4B (bcnt : Vec4) (c : Fin 4) (rowsLeft : Int) : Bool :=
  decide (4 ≤ bcnt c + rowsLeft)

/-- Source `isOverloadedB(c)`: `BCount[c] > totalBInPuzzle - 12`. -/
def isOverloadedB (totB : Int) (bcnt : Vec4) (c : Fin 4) : Bool :=
  decide (totB - 12 < bcnt c)

/-- The source's pruning loop over the four columns, with its early `break`:
`valid` becomes false at the first column failing either prune. -/
def prunesLoop (totB rowsLeft : Int) (bcnt : Vec4) : List (Fin 4) → Bool
  | [] => true
  | c :: rest =>
    if !canStillReach4B bcnt c rowsLeft || isOverloadedB totB bcnt c then false
    else prunesLoop totB rowsLeft bcnt rest

/-- The `pos === 16` terminal check: every column has `XCapacity = 0`,
`BCount ≥ 4` and `BXCapacity ≥ 0`. -/
def finalCheck (c : Ctrs) : Bool :=
  (List.finRange 4).all fun i =>
    decide (c.xcap i = 0) && decide (4 ≤ c.bcnt i) && decide (0 ≤ c.bxcap i)

/-- The `for (const p3 of perms3)` loop: place the three non-X words, run
the two prunes, recurse on success of both, restore `BCount` and move to the
next permutation when the recursion fails.  `recur` is the recursive call
`assignRow(pos + 1)`. -/
def tryPerms {κ : Type} (recur : SearchSt κ → Bool × SearchSt κ) (P : Puzzle)
    (pos : Nat) (rIdx : Fin 16) (otherCols : List (Fin 4)) :
    List (List (Fin 4)) → SearchSt κ → Bool × SearchSt κ
  | [], st => (false, st)
  | p3 :: rest, st =>
    let oldB2 := st.ctrs.bcnt
    let st2 := pushHist (placeWords P rIdx (p3.zip otherCols) st)
    let rowsLeft : Int := 16 - ((pos : Int) + 1)
    if prunesLoop P.totB rowsLeft st2.ctrs.bcnt colList then
      match recur st2 with
      | (true, st3) => (true, st3)
      | (false, st3) => tryPerms recur P pos rIdx otherCols rest (setBcnt st3 oldB2)
    else
      tryPerms recur P pos rIdx otherCols rest (setBcnt st2 oldB2)

/-- The three columns other than `colX` (`[0,1,2,3].filter(c => c !== colX)`). -/
def otherColsOf (colX : Fin 4) : List (Fin 4) :=
  colList.filter (fun c => c ≠ colX)

/-- Restore after a failed X placement: `XCapacity[colX]` and
`BXCapacity[colX]` from their saved values, the whole `BCount` array from
its saved copy. -/
def restoreX {κ : Type} (st : SearchSt κ) (colX : Fin 4)
    (oldXCap oldBXCap : Int) (oldB : Vec4) : SearchSt κ :=
  { st with
    ctrs :=
      { xcap := Function.update st.ctrs.xcap colX oldXCap
        bxcap := Function.update st.ctrs.bxcap colX oldBXCap
        bcnt := oldB } }

/-- The `for (let colX = 0; ...)` loop: skip exhausted columns, place the
X word, explore the permutations, restore and move on when they all fail. -/
def tryCols {κ : Type} (recur : SearchSt κ → Bool × SearchSt κ) (P : Puzzle)
    (pos : Nat) (rIdx : Fin 16) (isBX : Bool) :
    List (Fin 4) → SearchSt κ → Bool × SearchSt κ
  | [], st => (false, st)
  | colX :: rest, st =>
    if st.ctrs.xcap colX ≤ 0 then tryCols recur P pos rIdx isBX rest st
    else if isBX && decide (st.ctrs.bxcap colX ≤ 0) then
      tryCols recur P pos rIdx isBX rest st
    else
      match tryPerms recur P pos rIdx (otherColsOf colX) (P.nonXPerms rIdx)
          (pushHist (placeX P rIdx colX isBX st)) with
      | (true, st') => (true, st')
      | (false, st') =>
        tryCols recur P pos rIdx isBX rest
          (restoreX st' colX (st.ctrs.xcap colX) (st.ctrs.bxcap colX) st.ctrs.bcnt)

/-- Source `assignRow(pos)`: the recursive backtracking search with memoization.
At `pos = 16` the terminal check runs; otherwise the memo is consulted and,
on a miss, the row at visitation position `pos` is placed in every possible
way; the outcome is recorded in the memo.  The recursion is driven by a
structural `fuel` argument so that the definition computes; the search
starts with fuel `17`, and since every call consumes one unit and stops at
`pos = 16`, the `fuel = 0` arm is never reached (the source checks
`pos === 16` directly). -/
def assignRow {κ : Type} [DecidableEq κ] (P : Puzzle) (enc : Nat → Ctrs → κ) :
    Nat → Nat → SearchSt κ → Bool × SearchSt κ
  | 0, _, st => (false, st)
  | fuel + 1, pos, st =>
    if pos < 16 then
      match mfind st.memo (enc pos st.ctrs) with
      | some b => (b, st)
      | none =>
        match tryCols (fun s => assignRow P enc fuel (pos + 1) s) P pos (P.rowAt pos)
            (P.xIsBX (P.rowAt pos)) colList st with
        | (true, st') => (true, { st' with memo := (enc pos st.ctrs, true) :: st'.memo })
        | (false, st') => (false, { st' with memo := (enc pos st.ctrs, false) :: st'.memo })
    else
      (finalCheck st.ctrs, st)

/-- The output grid type (`finalArrangement`); cells are `none` until
written. -/
def Grid := Fin 16 → Fin 4 → Option Word

/-- The fresh state of one `solve` call. -/
def initSt (κ : Type) : SearchSt κ :=
  { ctrs := initCtrs, arr := fun _ _ => none, memo := [], hist := [initCtrs] }

/-- Run the search from the fresh state. -/
def runSolver {κ : Type} [DecidableEq κ] (P : Puzzle) (enc : Nat → Ctrs → κ) :
    Bool × SearchSt κ :=
  assignRow P enc 17 0 (initSt κ)

/-- The whole solver: validate and normalize the input, run the search,
return the arrangement or the `NoSolution` error. -/
def solveWith {κ : Type} [DecidableEq κ] (enc : Nat → Ctrs → κ)
    (input : List String) : Except Err Grid :=
  match parsePuzzle input with
  | .error e => .error e
  | .ok P =>
    match runSolver P enc with
    | (true, st) => .ok st.arr
    | (false, _) => .error .noSolution

/-- The string-key solver of `src/puzzle/validate.ts` (strategy A). -/
def solveA (input : List String) : Except Err Grid := solveWith encodeStateA input

/-- The bit-packed-key solver of `src/solvers/baseline.ts` (strategy B). -/
def solveB (input : List String) : Except Err Grid := solveWith encodeStateB input

/-! ### Basic frame lemmas for the state operations -/

theorem placeWord_xcap {κ : Type} (P : Puzzle) (r : Fin 16) (st : SearchSt κ)
    (wc : Fin 4 × Fin 4) : (placeWord P r st wc).ctrs.xcap = st.ctrs.xcap := by
  simp [placeWord]

theorem placeWord_bxcap {κ : Type} (P : Puzzle) (r : Fin 16) (st : SearchSt κ)
    (wc : Fin 4 × Fin 4) : (placeWord P r st wc).ctrs.bxcap = st.ctrs.bxcap := by
  simp [placeWord]

theorem placeWord_memo {κ : Type} (P : Puzzle) (r : Fin 16) (st : SearchSt κ)
    (wc : Fin 4 × Fin 4) : (placeWord P r st wc).memo = st.memo := by
  simp [placeWord]

theorem placeWords_xcap {κ : Type} (P : Puzzle) (r : Fin 16)
    (ps : List (Fin 4 × Fin 4)) (st : SearchSt κ) :
    (placeWords P r ps st).ctrs.xcap = st.ctrs.xcap := by
  induction ps generalizing st with
  | nil => rfl
  | cons p rest ih => rw [placeWords, List.foldl_cons, ← placeWords, ih, placeWord_xcap]

theorem placeWords_bxcap {κ : Type} (P : Puzzle) (r : Fin 16)
    (ps : List (Fin 4 × Fin 4)) (st : SearchSt κ) :
    (placeWords P r ps st).ctrs.bxcap = st.ctrs.bxcap := by
  induction ps generalizing st with
  | nil => rfl
  | cons p rest ih => rw [placeWords, List.foldl_cons, ← placeWords, ih, placeWord_bxcap]

theorem placeWords_memo {κ : Type} (P : Puzzle) (r : Fin 16)
    (ps : List (Fin 4 × Fin 4)) (st : SearchSt κ) :
    (placeWords P r ps st).memo = st.memo := by
  induction ps generalizing st with
  | nil => rfl
  | cons p rest ih => rw [placeWords, List.foldl_cons, ← placeWords, ih, placeWord_memo]

theorem setBcnt_ctrs {κ : Type} (st : SearchSt κ) (b : Vec4) :
    (setBcnt st b).ctrs = { st.ctrs with bcnt := b } := rfl

theorem pushHist_ctrs {κ : Type} (st : SearchSt κ) : (pushHist st).ctrs = st.ctrs := rfl

theorem pushHist_hist {κ : Type} (st : SearchSt κ) :
    (pushHist st).hist = st.ctrs :: st.hist := rfl

theorem placeWord_hist {κ : Type} (P : Puzzle) (r : Fin 16) (st : SearchSt κ)
    (wc : Fin 4 × Fin 4) : (placeWord P r st wc).hist = st.hist := by
  simp [placeWord]

theorem placeWords_hist {κ : Type} (P : Puzzle) (r : Fin 16)
    (ps : List (Fin 4 × Fin 4)) (st : SearchSt κ) :
    (placeWords P r ps st).hist = st.hist := by
  induction ps generalizing st with
  | nil => rfl
  | cons p rest ih => rw [placeWords, List.foldl_cons, ← placeWords, ih, placeWord_hist]

theorem Ctrs.ext3 {a b : Ctrs} (h1 : a.xcap = b.xcap) (h2 : a.bxcap = b.bxcap)
    (h3 : a.bcnt = b.bcnt) : a = b := by
  cases a; cases b; cases h1; cases h2; cases h3; rfl

/-! ### Restoration on backtrack (groundwork for the frame claim)

When the permutation loop, the column loop or the recursive search returns
`false`, the three counter arrays are exactly as they were on entry. -/

theorem tryPerms_false_ctrs {κ : Type} (recur : SearchSt κ → Bool × SearchSt κ)
    (P : Puzzle) (pos : Nat) (rIdx : Fin 16) (otherCols : List (Fin 4))
    (hrec : ∀ s, (recur s).1 = false → (recur s).2.ctrs = s.ctrs) :
    ∀ (perms : List (List (Fin 4))) (st : SearchSt κ),
      (tryPerms recur P pos rIdx otherCols perms st).1 = false →
      (tryPerms recur P pos rIdx otherCols perms st).2.ctrs = st.ctrs := by
  intro perms
  induction perms with
  | nil => intro st _; rfl
  | cons p3 rest ih =>
    intro st hfalse
    rw [tryPerms] at hfalse ⊢
    set st2 := pushHist (placeWords P rIdx (p3.zip otherCols) st) with hst2
    have hx : st2.ctrs.xcap = st.ctrs.xcap := by
      rw [hst2]; exact placeWords_xcap ..
    have hbx : st2.ctrs.bxcap = st.ctrs.bxcap := by
      rw [hst2]; exact placeWords_bxcap ..
    cases hpr : prunesLoop P.totB (16 - ((pos : Int) + 1)) st2.ctrs.bcnt colList with
    | true =>
      rw [hpr, if_pos rfl] at hfalse
      rw [if_pos rfl]
      rcases hr : recur st2 with ⟨b, st3⟩
      cases b with
      | true => simp [hr] at hfalse
      | false =>
        simp only [hr] at hfalse ⊢
        have h3 : st3.ctrs = st2.ctrs := by
          have := hrec st2; rw [hr] at this; exact this rfl
        rw [ih _ hfalse]
        exact Ctrs.ext3 (by simp [setBcnt, h3, hx]) (by simp [setBcnt, h3, hbx])
          (by simp [setBcnt])
    | false =>
      rw [hpr, if_neg Bool.false_ne_true] at hfalse
      rw [if_neg Bool.false_ne_true]
      rw [ih _ hfalse]
      exact Ctrs.ext3 (by simp [setBcnt, hx]) (by simp [setBcnt, hbx]) (by simp [setBcnt])

theorem restoreX_ctrs {κ : Type} (st st0 : SearchSt κ) (colX : Fin 4)
    (hx : st.ctrs.xcap = Function.update st0.ctrs.xcap colX (st0.ctrs.xcap colX - 1))
    (hbx : st.ctrs.bxcap = st0.ctrs.bxcap ∨
      st.ctrs.bxcap = Function.update st0.ctrs.bxcap colX (st0.ctrs.bxcap colX - 1)) :
    (restoreX st colX (st0.ctrs.xcap colX) (st0.ctrs.bxcap colX) st0.ctrs.bcnt).ctrs
      = st0.ctrs := by
  have hx' : Function.update st.ctrs.xcap colX (st0.ctrs.xcap colX) = st0.ctrs.xcap := by
    rw [hx, Function.update_idem, Function.update_eq_self]
  have hbx' : Function.update st.ctrs.bxcap colX (st0.ctrs.bxcap colX) = st0.ctrs.bxcap := by
    rcases hbx with h | h
    · rw [h, Function.update_eq_self]
    · rw [h, Function.update_idem, Function.update_eq_self]
  simp only [restoreX, hx', hbx']

theorem tryCols_false_ctrs {κ : Type} (recur : SearchSt κ → Bool × SearchSt κ)
    (P : Puzzle) (pos : Nat) (rIdx : Fin 16) (isBX : Bool)
    (hrec : ∀ s, (recur s).1 = false → (recur s).2.ctrs = s.ctrs) :
    ∀ (cols : List (Fin 4)) (st : SearchSt κ),
      (tryCols recur P pos rIdx isBX cols st).1 = false →
      (tryCols recur P pos rIdx isBX cols st).2.ctrs = st.ctrs := by
  intro cols
  induction cols with
  | nil => intro st _; rfl
  | cons colX rest ih =>
    intro st hfalse
    rw [tryCols] at hfalse ⊢
    by_cases h1 : st.ctrs.xcap colX ≤ 0
    · rw [if_pos h1] at hfalse ⊢; exact ih st hfalse
    · rw [if_neg h1] at hfalse ⊢
      by_cases h2 : (isBX && decide (st.ctrs.bxcap colX ≤ 0)) = true
      · rw [if_pos h2] at hfalse ⊢; exact ih st hfalse
      · rw [if_neg h2] at hfalse ⊢
        rcases hp : tryPerms recur P pos rIdx (otherColsOf colX) (P.nonXPerms rIdx)
            (pushHist (placeX P rIdx colX isBX st)) with ⟨b, st2⟩
        try rw [hp]
        try rw [hp] at hfalse
        cases b with
        | true => simp at hfalse
        | false =>
          simp only at hfalse ⊢
          have hperm : st2.ctrs = (pushHist (placeX P rIdx colX isBX st)).ctrs := by
            have := tryPerms_false_ctrs recur P pos rIdx (otherColsOf colX) hrec
              (P.nonXPerms rIdx) (pushHist (placeX P rIdx colX isBX st))
            rw [hp] at this; exact this rfl
          have hx1 : (pushHist (placeX P rIdx colX isBX st)).ctrs.xcap
              = Function.update st.ctrs.xcap colX (st.ctrs.xcap colX - 1) := rfl
          have hbx1 : (pushHist (placeX P rIdx colX isBX st)).ctrs.bxcap = st.ctrs.bxcap ∨
              (pushHist (placeX P rIdx colX isBX st)).ctrs.bxcap
                = Function.update st.ctrs.bxcap colX (st.ctrs.bxcap colX - 1) := by
            cases isBX with
            | true => right; rfl
            | false => left; rfl
          rw [ih _ hfalse]
          exact restoreX_ctrs st2 st colX (hperm ▸ hx1) (hperm ▸ hbx1)

/-- On a `false` return of `assignRow`, all three counter arrays hold
exactly their values on entry. -/
theorem assignRow_false_ctrs {κ : Type} [DecidableEq κ] (P : Puzzle)
    (enc : Nat → Ctrs → κ) :
    ∀ (fuel pos : Nat) (st : SearchSt κ),
      (assignRow P enc fuel pos st).1 = false →
      (assignRow P enc fuel pos st).2.ctrs = st.ctrs := by
  intro fuel
  induction fuel with
  | zero => intro pos st _; rfl
  | succ n ih =>
    intro pos st hfalse
    rw [assignRow] at hfalse ⊢
    by_cases h : pos < 16
    · rw [if_pos h] at hfalse ⊢
      rcases hm : mfind st.memo (enc pos st.ctrs) with _ | b
      · rw [hm] at hfalse
        have hrec : ∀ s, (assignRow P enc n (pos + 1) s).1 = false →
            (assignRow P enc n (pos + 1) s).2.ctrs = s.ctrs :=
          fun s => ih (pos + 1) s
        rcases hc : tryCols (fun s => assignRow P enc n (pos + 1) s) P pos
            (P.rowAt pos) (P.xIsBX (P.rowAt pos)) colList st with ⟨b, st2⟩
        try rw [hc]
        try rw [hc] at hfalse
        cases b with
        | true => simp at hfalse
        | false =>
          simp only at hfalse ⊢
          have := tryCols_false_ctrs (fun s => assignRow P enc n (pos + 1) s) P pos
            (P.rowAt pos) (P.xIsBX (P.rowAt pos)) hrec colList st
          rw [hc] at this
          exact this rfl
      · rfl
    · rw [if_neg h]

/-! ### Range invariants for the capacity counters (groundwork for C10) -/

/-- Every column's marked capacity lies in `0..4` and flagged-marked
capacity in `0..1`. -/
def CtrsInv (c : Ctrs) : Prop :=
  ∀ i : Fin 4, 0 ≤ c.xcap i ∧ c.xcap i ≤ 4 ∧ 0 ≤ c.bxcap i ∧ c.bxcap i ≤ 1

/-- All recorded counter snapshots satisfy the range invariant. -/
def HistInv {κ : Type} (st : SearchSt κ) : Prop :=
  ∀ c ∈ st.hist, CtrsInv c

theorem histInv_pushHist {κ : Type} (st : SearchSt κ) (h1 : CtrsInv st.ctrs)
    (h2 : HistInv st) : HistInv (pushHist st) := by
  intro c hc
  rw [pushHist_hist] at hc
  rcases List.mem_cons.mp hc with rfl | hc
  · exact h1
  · exact h2 c hc

theorem ctrsInv_placeWords {κ : Type} (P : Puzzle) (r : Fin 16)
    (ps : List (Fin 4 × Fin 4)) (st : SearchSt κ) (h : CtrsInv st.ctrs) :
    CtrsInv (placeWords P r ps st).ctrs := by
  intro i
  rw [placeWords_xcap, placeWords_bxcap]
  exact h i

theorem ctrsInv_setBcnt {κ : Type} (st : SearchSt κ) (b : Vec4)
    (h : CtrsInv st.ctrs) : CtrsInv (setBcnt st b).ctrs := h

theorem ctrsInv_placeX {κ : Type} (P : Puzzle) (r : Fin 16) (colX : Fin 4)
    (isBX : Bool) (st : SearchSt κ) (h : CtrsInv st.ctrs)
    (h1 : ¬st.ctrs.xcap colX ≤ 0)
    (h2 : ¬(isBX && decide (st.ctrs.bxcap colX ≤ 0)) = true) :
    CtrsInv (placeX P r colX isBX st).ctrs := by
  intro i
  obtain ⟨hx0, hx4, hb0, hb1⟩ := h i
  simp only [placeX]
  by_cases hi : i = colX
  · subst hi
    constructor
    · rw [Function.update_same]; omega
    constructor
    · rw [Function.update_same]; omega
    · cases isBX with
      | false => simp; omega
      | true =>
        simp only [Bool.true_and, decide_eq_true_eq] at h2
        rw [if_pos rfl, Function.update_same]
        omega
  · constructor
    · rw [Function.update_noteq hi]; omega
    constructor
    · rw [Function.update_noteq hi]; omega
    · cases isBX with
      | false => simp; omega
      | true => rw [if_pos rfl, Function.update_noteq hi]; omega

theorem ctrsInv_restoreX {κ : Type} (st : SearchSt κ) (colX : Fin 4)
    (oldX oldBX : Int) (oldB : Vec4) (h : CtrsInv st.ctrs)
    (hx : 0 ≤ oldX ∧ oldX ≤ 4) (hbx : 0 ≤ oldBX ∧ oldBX ≤ 1) :
    CtrsInv (restoreX st colX oldX oldBX oldB).ctrs := by
  intro i
  obtain ⟨h1, h2, h3, h4⟩ := h i
  simp only [restoreX]
  by_cases hi : i = colX
  · subst hi
    rw [Function.update_same, Function.update_same]
    exact ⟨hx.1, hx.2, hbx.1, hbx.2⟩
  · rw [Function.update_noteq hi, Function.update_noteq hi]
    exact ⟨h1, h2, h3, h4⟩

theorem tryPerms_inv {κ : Type} (recur : SearchSt κ → Bool × SearchSt κ)
    (P : Puzzle) (pos : Nat) (rIdx : Fin 16) (otherCols : List (Fin 4))
    (hrecf : ∀ s, (recur s).1 = false → (recur s).2.ctrs = s.ctrs)
    (hrec : ∀ s, CtrsInv s.ctrs → HistInv s →
      HistInv (recur s).2 ∧ CtrsInv (recur s).2.ctrs) :
    ∀ (perms : List (List (Fin 4))) (st : SearchSt κ),
      CtrsInv st.ctrs → HistInv st →
      HistInv (tryPerms recur P pos rIdx otherCols perms st).2 ∧
      CtrsInv (tryPerms recur P pos rIdx otherCols perms st).2.ctrs := by
  intro perms
  induction perms with
  | nil => intro st h1 h2; exact ⟨h2, h1⟩
  | cons p3 rest ih =>
    intro st h1 h2
    rw [tryPerms]
    set st2 := pushHist (placeWords P rIdx (p3.zip otherCols) st) with hst2
    have h1' : CtrsInv st2.ctrs := ctrsInv_placeWords P rIdx _ st h1
    have h2' : HistInv st2 := by
      rw [hst2]
      refine histInv_pushHist _ (ctrsInv_placeWords P rIdx _ st h1) ?_
      intro c hc
      rw [placeWords_hist] at hc
      exact h2 c hc
    cases hpr : prunesLoop P.totB (16 - ((pos : Int) + 1)) st2.ctrs.bcnt colList with
    | true =>
      rw [if_pos rfl]
      rcases hr : recur st2 with ⟨b, st3⟩
      have hrec' := hrec st2 h1' h2'
      rw [hr] at hrec'
      cases b with
      | true => exact hrec'
      | false =>
        simp only
        exact ih (setBcnt st3 st.ctrs.bcnt) (ctrsInv_setBcnt _ _ hrec'.2) hrec'.1
    | false =>
      rw [if_neg Bool.false_ne_true]
      exact ih (setBcnt st2 st.ctrs.bcnt) (ctrsInv_setBcnt _ _ h1') h2'

theorem tryCols_inv {κ : Type} (recur : SearchSt κ → Bool × SearchSt κ)
    (P : Puzzle) (pos : Nat) (rIdx : Fin 16) (isBX : Bool)
    (hrecf : ∀ s, (recur s).1 = false → (recur s).2.ctrs = s.ctrs)
    (hrec : ∀ s, CtrsInv s.ctrs → HistInv s →
      HistInv (recur s).2 ∧ CtrsInv (recur s).2.ctrs) :
    ∀ (cols : List (Fin 4)) (st : SearchSt κ),
      CtrsInv st.ctrs → HistInv st →
      HistInv (tryCols recur P pos rIdx isBX cols st).2 ∧
      CtrsInv (tryCols recur P pos rIdx isBX cols st).2.ctrs := by
  intro cols
  induction cols with
  | nil => intro st h1 h2; exact ⟨h2, h1⟩
  | cons colX rest ih =>
    intro st h1 h2
    rw [tryCols]
    by_cases hg1 : st.ctrs.xcap colX ≤ 0
    · rw [if_pos hg1]; exact ih st h1 h2
    · rw [if_neg hg1]
      by_cases hg2 : (isBX && decide (st.ctrs.bxcap colX ≤ 0)) = true
      · rw [if_pos hg2]; exact ih st h1 h2
      · rw [if_neg hg2]
        have hx1 : CtrsInv (placeX P rIdx colX isBX st).ctrs :=
          ctrsInv_placeX P rIdx colX isBX st h1 hg1 hg2
        have h1' : CtrsInv (pushHist (placeX P rIdx colX isBX st)).ctrs := hx1
        have h2' : HistInv (pushHist (placeX P rIdx colX isBX st)) := by
          refine histInv_pushHist _ hx1 ?_
          intro c hc
          exact h2 c hc
        rcases hp : tryPerms recur P pos rIdx (otherColsOf colX) (P.nonXPerms rIdx)
            (pushHist (placeX P rIdx colX isBX st)) with ⟨b, st2⟩
        have hperm := tryPerms_inv recur P pos rIdx (otherColsOf colX) hrecf hrec
          (P.nonXPerms rIdx) (pushHist (placeX P rIdx colX isBX st)) h1' h2'
        rw [hp] at hperm
        cases b with
        | true => simpa using hperm
        | false =>
          simp only
          refine ih _ ?_ hperm.1
          exact ctrsInv_restoreX st2 colX _ _ _ hperm.2
            ⟨(h1 colX).1, (h1 colX).2.1⟩ ⟨(h1 colX).2.2.1, (h1 colX).2.2.2⟩

theorem assignRow_inv {κ : Type} [DecidableEq κ] (P : Puzzle)
    (enc : Nat → Ctrs → κ) :
    ∀ (fuel pos : Nat) (st : SearchSt κ),
      CtrsInv st.ctrs → HistInv st →
      HistInv (assignRow P enc fuel pos st).2 ∧
      CtrsInv (assignRow P enc fuel pos st).2.ctrs := by
  intro fuel
  induction fuel with
  | zero => intro pos st h1 h2; exact ⟨h2, h1⟩
  | succ n ih =>
    intro pos st h1 h2
    rw [assignRow]
    by_cases h : pos < 16
    · rw [if_pos h]
      rcases hm : mfind st.memo (enc pos st.ctrs) with _ | b
      · have hrecf : ∀ s, (assignRow P enc n (pos + 1) s).1 = false →
            (assignRow P enc n (pos + 1) s).2.ctrs = s.ctrs :=
          fun s => assignRow_false_ctrs P enc n (pos + 1) s
        have hrec : ∀ s, CtrsInv s.ctrs → HistInv s →
            HistInv (assignRow P enc n (pos + 1) s).2 ∧
            CtrsInv (assignRow P enc n (pos + 1) s).2.ctrs :=
          fun s hs1 hs2 => ih (pos + 1) s hs1 hs2
        rcases hc : tryCols (fun s => assignRow P enc n (pos + 1) s) P pos
            (P.rowAt pos) (P.xIsBX (P.rowAt pos)) colList st with ⟨b, st2⟩
        have hcols := tryCols_inv (fun s => assignRow P enc n (pos + 1) s) P pos
          (P.rowAt pos) (P.xIsBX (P.rowAt pos)) hrecf hrec colList st h1 h2
        rw [hc] at hcols
        cases b with
        | true => exact hcols
        | false => exact hcols
      · exact ⟨h2, h1⟩
    · rw [if_neg h]
      exact ⟨h2, h1⟩

theorem ctrsInv_init : CtrsInv initCtrs := by
  intro i
  simp [initCtrs]

/-- Every counter snapshot recorded during a run of the search satisfies
the capacity ranges. -/
theorem runSolver_hist_inv {κ : Type} [DecidableEq κ] (P : Puzzle)
    (enc : Nat → Ctrs → κ) :
    ∀ c ∈ (runSolver P enc).2.hist, CtrsInv c := by
  have hinit : HistInv (initSt κ) := by
    intro c hc
    rcases List.mem_cons.mp hc with rfl | hc
    · exact ctrsInv_init
    · simp at hc
  exact (assignRow_inv P enc 17 0 (initSt κ) ctrsInv_init hinit).1

/-! ### Properties of input validation (groundwork for C5, C6) -/

/-- The three validation conditions of the source: 16 lines, 4 tokens per
line, all tokens recognized labels. -/
def WellTokenized (input : List String) : Prop :=
  input.length = 16 ∧
    ∀ line ∈ input, (tokenize line).length = 4 ∧ ∀ w ∈ tokenize line, isLabel w

instance (input : List String) : Decidable (WellTokenized input) := by
  unfold WellTokenized
  exact inferInstance

theorem all_map_len_iff (input : List String) :
    ((input.map tokenize).all (fun t => t.length = 4) = true) ↔
      ∀ line ∈ input, (tokenize line).length = 4 := by
  simp [List.all_map, List.all_eq_true, Function.comp]

theorem all_map_label_iff (input : List String) :
    ((input.map tokenize).all (fun t => t.all isLabel) = true) ↔
      ∀ line ∈ input, ∀ w ∈ tokenize line, isLabel w = true := by
  simp [List.all_map, List.all_eq_true, Function.comp]

theorem parsePuzzle_ok_iff (input : List String) :
    (∃ P, parsePuzzle input = .ok P) ↔ WellTokenized input := by
  constructor
  · rintro ⟨P, hP⟩
    unfold parsePuzzle at hP
    by_cases h16 : input.length = 16
    · rw [if_pos h16] at hP
      by_cases h4 : (input.map tokenize).all (fun t => t.length = 4)
      · rw [if_pos h4] at hP
        by_cases hlab : (input.map tokenize).all (fun t => t.all isLabel)
        · exact ⟨h16, fun line hl =>
            ⟨(all_map_len_iff input).mp h4 line hl,
             fun w hw => (all_map_label_iff input).mp hlab line hl w hw⟩⟩
        · rw [if_neg hlab] at hP; cases hP
      · rw [if_neg h4] at hP; cases hP
    · rw [if_neg h16] at hP; cases hP
  · rintro ⟨h16, hrest⟩
    unfold parsePuzzle
    rw [if_pos h16, if_pos ((all_map_len_iff input).mpr fun l hl => (hrest l hl).1),
      if_pos ((all_map_label_iff input).mpr fun l hl => (hrest l hl).2)]
    exact ⟨_, rfl⟩

theorem parsePuzzle_error_iff (input : List String) :
    parsePuzzle input = .error .malformed ↔ ¬ WellTokenized input := by
  rw [← parsePuzzle_ok_iff]
  constructor
  · rintro h ⟨P, hP⟩
    rw [h] at hP; cases hP
  · intro h
    rcases hE : parsePuzzle input with e | P
    · cases e with
      | malformed => rfl
      | noSolution =>
        exfalso
        unfold parsePuzzle at hE
        by_cases h16 : input.length = 16
        · rw [if_pos h16] at hE
          by_cases h4 : (input.map tokenize).all (fun t => t.length = 4)
          · rw [if_pos h4] at hE
            by_cases hlab : (input.map tokenize).all (fun t => t.all isLabel)
            · rw [if_pos hlab] at hE; cases hE
            · rw [if_neg hlab] at hE; cases hE
          · rw [if_neg h4] at hE; cases hE
        · rw [if_neg h16] at hE; cases hE
    · exact absurd ⟨P, hE⟩ h

theorem solveWith_error_malformed_iff {κ : Type} [DecidableEq κ]
    (enc : Nat → Ctrs → κ) (input : List String) :
    solveWith enc input = .error .malformed ↔ ¬ WellTokenized input := by
  rw [← parsePuzzle_error_iff]
  unfold solveWith
  rcases hE : parsePuzzle input with e | P
  · cases e <;> simp
  · simp only
    rcases runSolver P enc with ⟨b, st⟩
    cases b <;> simp

/-! ### Concrete instances used as witnesses -/

/-- The puzzle whose sixteen rows are all `A A A A`. -/
def puzzleAllA : Puzzle := ⟨fun _ => ⟨.A, .A, .A, .A⟩⟩

/-- Two counter states that the bit-packed encoder cannot distinguish:
they differ only in `XCapacity[3]` (`4` versus `0`), every field lying in
its documented range (`XCapacity 0..4`, `BXCapacity 0..1`, `BCount 0..16`,
position `0..16`). -/
def ctrsCollide1 : Ctrs :=
  { xcap := fun i => if i = 3 then 4 else 0, bxcap := fun _ => 0, bcnt := fun _ => 0 }

def ctrsCollide2 : Ctrs :=
  { xcap := fun _ => 0, bxcap := fun _ => 0, bcnt := fun _ => 0 }

/-- C2: the bit-packed state encoder (strategy B) is not injective on
in-range logical states.  The spec requires distinct keys for distinct
states, and the source's own comments describe a 41-bit packing
(`XCapacity` in bits 24..35, `pos` in bits 36..40); but JS bitwise
operators truncate to 32 bits and reduce shift counts modulo 32, so
`XCapacity[3]` (bits 33..35) is dropped entirely and `pos << 36` is
actually `pos << 4`.  The two states here differ in `XCapacity[3]` yet
receive the same key. -/
theorem encodeStateB_not_injective :
    ctrsCollide1 ≠ ctrsCollide2 ∧
      encodeStateB 0 ctrsCollide1 = encodeStateB 0 ctrsCollide2 := by
  constructor
  · intro h
    have := congrArg (fun c => c.xcap 3) h
    simp [ctrsCollide1, ctrsCollide2] at this
  · decide

/-- C5: the solver fails with the `MalformedInput` class exactly when the
input misses one of the three validation conditions (16 lines, 4
whitespace-separated tokens per line, all tokens recognized labels); on
inputs passing all three, no `MalformedInput` error is raised. -/
theorem solveB_malformed_iff (input : List String) :
    solveB input = .error .malformed ↔ ¬ WellTokenized input :=
  solveWith_error_malformed_iff encodeStateB input

/-- C9: whenever the recursive search at a position returns `false`, the
three column-state arrays (`XCapacity`, `BXCapacity`, `BCount`) hold
exactly the values they held on entry to that call. -/
theorem assignRow_false_restores (P : Puzzle) (fuel pos : Nat) (st : SearchSt Int)
    (hfalse : (assignRow P encodeStateB fuel pos st).1 = false) :
    (assignRow P encodeStateB fuel pos st).2.ctrs.xcap = st.ctrs.xcap ∧
      (assignRow P encodeStateB fuel pos st).2.ctrs.bxcap = st.ctrs.bxcap ∧
      (assignRow P encodeStateB fuel pos st).2.ctrs.bcnt = st.ctrs.bcnt := by
  have h := assignRow_false_ctrs P encodeStateB fuel pos st hfalse
  exact ⟨by rw [h], by rw [h], by rw [h]⟩

/-- Witness for C9 at a concrete unsolvable puzzle. -/
theorem assignRow_false_restores_w :
    (assignRow puzzleAllA encodeStateB 17 0 (initSt Int)).2.ctrs.xcap
        = (initSt Int).ctrs.xcap ∧
      (assignRow puzzleAllA encodeStateB 17 0 (initSt Int)).2.ctrs.bxcap
        = (initSt Int).ctrs.bxcap ∧
      (assignRow puzzleAllA encodeStateB 17 0 (initSt Int)).2.ctrs.bcnt
        = (initSt Int).ctrs.bcnt :=
  assignRow_false_restores puzzleAllA 17 0 (initSt Int) (by decide)

/-- C10: in every counter snapshot recorded during one `solve` call of the
bit-packed solver (the initial state and each state created by placing an
X word or a permutation of non-X words), every column's marked capacity
stays in `0..4` and every column's flagged-marked capacity stays in
`0..1`; in particular neither ever goes negative. -/
theorem search_capacities_in_range (P : Puzzle) :
    ∀ c ∈ (runSolver P encodeStateB).2.hist, ∀ i : Fin 4,
      0 ≤ c.xcap i ∧ c.xcap i ≤ 4 ∧ 0 ≤ c.bxcap i ∧ c.bxcap i ≤ 1 :=
  fun c hc => runSolver_hist_inv P encodeStateB c hc

/-- Witness for C10 at a concrete puzzle and recorded snapshot. -/
theorem search_capacities_in_range_w :
    0 ≤ initCtrs.xcap 0 ∧ initCtrs.xcap 0 ≤ 4 ∧
      0 ≤ initCtrs.bxcap 0 ∧ initCtrs.bxcap 0 ≤ 1 :=
  search_capacities_in_range puzzleAllA initCtrs (by decide) 0

/-! ### The row visitation order (C8) -/

theorem totalBRow_le_four (P : Puzzle) (r : Fin 16) : P.totalBRow r ≤ 4 := by
  have := List.countP_le_length (l := (P.rows r).toList) (p := (·.hasB))
  simpa [Row.toList] using this

theorem rowOrder_length (P : Puzzle) : P.rowOrder.length = 16 := by
  unfold Puzzle.rowOrder
  rw [(List.perm_insertionSort _ _).length_eq, List.length_finRange]

theorem rowOrder_sorted (P : Puzzle) :
    List.Pairwise (fun i j => P.orderKey i ≤ P.orderKey j) P.rowOrder := by
  have htot : IsTotal (Fin 16) (fun i j => P.orderKey i ≤ P.orderKey j) :=
    ⟨fun a b => Nat.le_total _ _⟩
  have htrans : IsTrans (Fin 16) (fun i j => P.orderKey i ≤ P.orderKey j) :=
    ⟨fun a b c hab hbc => Nat.le_trans hab hbc⟩
  exact @List.sorted_insertionSort (Fin 16) _ _ htot htrans (List.finRange 16)

theorem rowAt_orderKey_mono (P : Puzzle) (i j : Nat) (hij : i < j) (hj : j < 16) :
    P.orderKey (P.rowAt i) ≤ P.orderKey (P.rowAt j) := by
  have hlen := rowOrder_length P
  have hi' : i < P.rowOrder.length := by omega
  have hj' : j < P.rowOrder.length := by omega
  have hp := (List.pairwise_iff_get).mp (rowOrder_sorted P) ⟨i, hi'⟩ ⟨j, hj'⟩ hij
  have hgi : P.rowAt i = P.rowOrder.get ⟨i, hi'⟩ := by
    simp [Puzzle.rowAt, List.getD_eq_getElem?_getD, List.getElem?_eq_getElem hi']
  have hgj : P.rowAt j = P.rowOrder.get ⟨j, hj'⟩ := by
    simp [Puzzle.rowAt, List.getD_eq_getElem?_getD, List.getElem?_eq_getElem hj']
  rw [hgi, hgj]
  exact hp

/-- C8: the row visitation order (computed once, before the search, as
`rowOrder`) lists every row whose marked word is `BX` before every row
whose marked word is `AX`, and within each of the two groups rows appear
in ascending order of their total flagged-word count. -/
theorem rowOrder_spec (P : Puzzle) (i j : Nat) (hij : i < j) (hj : j < 16) :
    (P.xIsBX (P.rowAt j) = true → P.xIsBX (P.rowAt i) = true) ∧
      (P.xIsBX (P.rowAt i) = P.xIsBX (P.rowAt j) →
        P.totalBRow (P.rowAt i) ≤ P.totalBRow (P.rowAt j)) := by
  have hkey := rowAt_orderKey_mono P i j hij hj
  have hti := totalBRow_le_four P (P.rowAt i)
  have htj := totalBRow_le_four P (P.rowAt j)
  unfold Puzzle.orderKey at hkey
  constructor
  · intro hbxj
    by_contra hbxi
    rw [Bool.not_eq_true] at hbxi
    rw [hbxj, hbxi] at hkey
    simp at hkey
    omega
  · intro heq
    rw [heq] at hkey
    cases P.xIsBX (P.rowAt j) <;> simp_all <;> omega

/-- Witness for C8 at a concrete puzzle and pair of positions. -/
theorem rowOrder_spec_w :
    (puzzleAllA.xIsBX (puzzleAllA.rowAt 1) = true →
      puzzleAllA.xIsBX (puzzleAllA.rowAt 0) = true) ∧
      (puzzleAllA.xIsBX (puzzleAllA.rowAt 0) = puzzleAllA.xIsBX (puzzleAllA.rowAt 1) →
        puzzleAllA.totalBRow (puzzleAllA.rowAt 0) ≤ puzzleAllA.totalBRow (puzzleAllA.rowAt 1)) :=
  rowOrder_spec puzzleAllA 0 1 (by decide) (by decide)

/-! ### Decidable equality for solver results -/

instance : DecidableEq Grid := inferInstanceAs (DecidableEq (Fin 16 → Fin 4 → Option Word))

instance : DecidableEq (Except Err Grid) := fun a b =>
  match a, b with
  | .ok x, .ok y => decidable_of_iff (x = y) (by simp)
  | .error e, .error f => decidable_of_iff (e = f) (by simp)
  | .ok _, .error _ => isFalse (by simp)
  | .error _, .ok _ => isFalse (by simp)

/-! ### Inputs with two or zero marked words per row (C6) -/

/-- Sixteen identical lines, each with two marked words. -/
def inputTwoAX : List String := List.replicate 16 "AX AX A A"

/-- Sixteen identical lines with no marked word at all. -/
def inputNoX : List String := List.replicate 16 "A A A A"

/-- C6 counterexample: the solver does not reject rows with two marked
words, nor rows with zero marked words, as `MalformedInput`; both inputs
pass validation (every token is a recognized label) and the search runs,
ending here in the `NoSolution` outcome. -/
theorem badMarkedRows_not_malformed :
    ((tokenize "AX AX A A").countP (fun s => s = "AX" || s = "BX") = 2 ∧
        solveB inputTwoAX = .error .noSolution) ∧
      ((tokenize "A A A A").countP (fun s => s = "AX" || s = "BX") = 0 ∧
        solveB inputNoX = .error .noSolution) := by
  exact ⟨⟨by decide, by decide⟩, ⟨by decide, by decide⟩⟩

/-- C6 amended: inputs whose lines tokenize into four recognized labels are
never rejected as `MalformedInput`, regardless of how many marked words a
row holds; the solver proceeds (treating the first word in canonical order
as the row's marked word) and either returns a grid or ends in
`NoSolution`. -/
theorem solveB_wellTokenized_not_malformed (input : List String)
    (h : WellTokenized input) :
    (∃ g, solveB input = .ok g) ∨ solveB input = .error .noSolution := by
  obtain ⟨P, hP⟩ := (parsePuzzle_ok_iff input).mpr h
  unfold solveB solveWith
  rcases hE : parsePuzzle input with e | Q
  · rw [hP] at hE; cases hE
  · simp only
    rcases h2 : runSolver Q encodeStateB with ⟨b, st⟩
    try rw [h2]
    cases b with
    | true => exact Or.inl ⟨st.arr, rfl⟩
    | false => exact Or.inr rfl

/-- Witness for the amended C6 at an input with doubly-marked rows. -/
theorem solveB_wellTokenized_not_malformed_w :
    (∃ g, solveB inputTwoAX = .ok g) ∨ solveB inputTwoAX = .error .noSolution :=
  solveB_wellTokenized_not_malformed inputTwoAX (by decide)

/-! ### The two prunes guarding the recursion (C7) -/

theorem prunesLoop_eq_true_iff (totB rl : Int) (bcnt : Vec4) :
    ∀ l : List (Fin 4), prunesLoop totB rl bcnt l = true ↔
      ∀ c ∈ l, canStillReach4B bcnt c rl = true ∧ isOverloadedB totB bcnt c = false := by
  intro l
  induction l with
  | nil => simp [prunesLoop]
  | cons c rest ih =>
    rw [prunesLoop]
    by_cases hc : (!canStillReach4B bcnt c rl || isOverloadedB totB bcnt c) = true
    · rw [if_pos hc]
      simp only [Bool.or_eq_true, Bool.not_eq_true'] at hc
      constructor
      · intro h; cases h
      · intro h
        have := h c (by simp)
        rcases hc with hc | hc
        · rw [this.1] at hc; cases hc
        · rw [this.2] at hc; cases hc
    · rw [if_neg hc]
      simp only [Bool.or_eq_true, Bool.not_eq_true'] at hc
      push_neg at hc
      constructor
      · intro h c' hc'
        rcases List.mem_cons.mp hc' with rfl | hc'
        · refine ⟨?_, ?_⟩
          · cases hr : canStillReach4B bcnt c' rl
            · exact absurd hr hc.1
            · rfl
          · cases ho : isOverloadedB totB bcnt c'
            · rfl
            · exact absurd ho hc.2
        · exact (ih.mp h) c' hc'
      · intro h
        exact ih.mpr fun c' hc' => h c' (List.mem_cons_of_mem _ hc')

/-- C7: after placing a row's three non-marked words the solver recurses
into position `pos + 1` exactly when for every column both prunes pass:
(1) the pruning loop (with its early break) accepts exactly when every
column's flagged count plus the `16 - (pos + 1)` rows still unplaced is at
least `4` and no column's flagged count exceeds the puzzle's total flagged
count minus `12`; (2) when the loop rejects, the permutation's branch is
abandoned — the state is reverted and the next permutation is tried,
without invoking the recursive search; (3) when the loop accepts, the
recursive search is invoked on the placed state. -/
theorem pruning_guard_spec :
    (∀ (totB : Int) (pos : Nat) (bcnt : Vec4),
        prunesLoop totB (16 - ((pos : Int) + 1)) bcnt colList = true ↔
          ∀ c : Fin 4, 4 ≤ bcnt c + (16 - ((pos : Int) + 1)) ∧ bcnt c ≤ totB - 12) ∧
    (∀ (κ : Type) (recur : SearchSt κ → Bool × SearchSt κ) (P : Puzzle)
        (pos : Nat) (rIdx : Fin 16) (oc : List (Fin 4)) (p3 : List (Fin 4))
        (rest : List (List (Fin 4))) (st : SearchSt κ),
        prunesLoop P.totB (16 - ((pos : Int) + 1))
            (pushHist (placeWords P rIdx (p3.zip oc) st)).ctrs.bcnt colList = false →
          tryPerms recur P pos rIdx oc (p3 :: rest) st
            = tryPerms recur P pos rIdx oc rest
                (setBcnt (pushHist (placeWords P rIdx (p3.zip oc) st)) st.ctrs.bcnt)) ∧
    (∀ (κ : Type) (recur : SearchSt κ → Bool × SearchSt κ) (P : Puzzle)
        (pos : Nat) (rIdx : Fin 16) (oc : List (Fin 4)) (p3 : List (Fin 4))
        (rest : List (List (Fin 4))) (st : SearchSt κ),
        prunesLoop P.totB (16 - ((pos : Int) + 1))
            (pushHist (placeWords P rIdx (p3.zip oc) st)).ctrs.bcnt colList = true →
          tryPerms recur P pos rIdx oc (p3 :: rest) st
            = match recur (pushHist (placeWords P rIdx (p3.zip oc) st)) with
              | (true, st3) => (true, st3)
              | (false, st3) =>
                tryPerms recur P pos rIdx oc rest (setBcnt st3 st.ctrs.bcnt)) := by
  refine ⟨?_, ?_, ?_⟩
  · intro totB pos bcnt
    rw [prunesLoop_eq_true_iff]
    constructor
    · intro h c
      have := h c (by fin_cases c <;> simp [colList])
      unfold canStillReach4B isOverloadedB at this
      constructor
      · exact of_decide_eq_true this.1
      · have := of_decide_eq_false this.2
        omega
    · intro h c _
      unfold canStillReach4B isOverloadedB
      refine ⟨decide_eq_true (h c).1, decide_eq_false ?_⟩
      have := (h c).2
      omega
  · intro κ recur P pos rIdx oc p3 rest st hf
    rw [tryPerms, if_neg (by rw [hf]; exact Bool.false_ne_true)]
  · intro κ recur P pos rIdx oc p3 rest st ht
    rw [tryPerms, if_pos ht]

/-- Witness for C7 at concrete counters and a concrete permutation step. -/
theorem pruning_guard_spec_w :
    (∀ c : Fin 4, 4 ≤ (fun _ : Fin 4 => (1 : Int)) c + (16 - (((0 : Nat) : Int) + 1)) ∧
        (fun _ : Fin 4 => (1 : Int)) c ≤ 16 - 12) ∧
      tryPerms (fun s => (false, s)) puzzleAllA 0 0 (otherColsOf 0)
          ([([1, 2, 3] : List (Fin 4))] : List (List (Fin 4))) (initSt Int)
        = tryPerms (fun s => (false, s)) puzzleAllA 0 0 (otherColsOf 0) []
            (setBcnt
              (pushHist (placeWords puzzleAllA 0
                (([1, 2, 3] : List (Fin 4)).zip (otherColsOf 0)) (initSt Int)))
              (initSt Int).ctrs.bcnt) := by
  constructor
  · exact (pruning_guard_spec.1 16 0 (fun _ => (1 : Int))).mp (by decide)
  · exact pruning_guard_spec.2.1 Int (fun s => (false, s)) puzzleAllA 0 0
      (otherColsOf 0) [1, 2, 3] [] (initSt Int) (by decide)

/-! ### The memo never holds a readable `true` entry (groundwork for C1)

A `true` entry is written only on the success path, which unwinds the whole
search immediately, so every memo lookup happens while the table holds only
`false` entries. -/

/-- Every binding in the memo is `false`. -/
def MemoFalse {κ : Type} (m : List (κ × Bool)) : Prop := ∀ kb ∈ m, kb.2 = false

theorem mfind_memoFalse {κ : Type} [DecidableEq κ] :
    ∀ (m : List (κ × Bool)), MemoFalse m → ∀ (k : κ) (b : Bool),
      mfind m k = some b → b = false := by
  intro m
  induction m with
  | nil => intro _ k b h; cases h
  | cons kb rest ih =>
    intro hm k b h
    rw [mfind] at h
    by_cases hk : k = kb.1
    · rw [if_pos hk] at h
      cases h
      exact hm kb (by simp)
    · rw [if_neg hk] at h
      exact ih (fun x hx => hm x (List.mem_cons_of_mem _ hx)) k b h

theorem placeX_memo {κ : Type} (P : Puzzle) (r : Fin 16) (colX : Fin 4)
    (isBX : Bool) (st : SearchSt κ) : (placeX P r colX isBX st).memo = st.memo := rfl

theorem pushHist_memo {κ : Type} (st : SearchSt κ) : (pushHist st).memo = st.memo := rfl

theorem setBcnt_memo {κ : Type} (st : SearchSt κ) (b : Vec4) :
    (setBcnt st b).memo = st.memo := rfl

theorem restoreX_memo {κ : Type} (st : SearchSt κ) (colX : Fin 4)
    (oX oBX : Int) (oB : Vec4) : (restoreX st colX oX oBX oB).memo = st.memo := rfl

theorem tryPerms_false_memo {κ : Type} (recur : SearchSt κ → Bool × SearchSt κ)
    (P : Puzzle) (pos : Nat) (rIdx : Fin 16) (otherCols : List (Fin 4))
    (hrecM : ∀ s, MemoFalse s.memo → (recur s).1 = false → MemoFalse (recur s).2.memo) :
    ∀ (perms : List (List (Fin 4))) (st : SearchSt κ), MemoFalse st.memo →
      (tryPerms recur P pos rIdx otherCols perms st).1 = false →
      MemoFalse (tryPerms recur P pos rIdx otherCols perms st).2.memo := by
  intro perms
  induction perms with
  | nil => intro st hm _; exact hm
  | cons p3 rest ih =>
    intro st hm hfalse
    rw [tryPerms] at hfalse ⊢
    set st2 := pushHist (placeWords P rIdx (p3.zip otherCols) st) with hst2
    have hm2 : MemoFalse st2.memo := by
      rw [hst2, pushHist_memo, placeWords_memo]; exact hm
    cases hpr : prunesLoop P.totB (16 - ((pos : Int) + 1)) st2.ctrs.bcnt colList with
    | true =>
      rw [hpr, if_pos rfl] at hfalse
      rw [if_pos rfl]
      rcases hr : recur st2 with ⟨b, st3⟩
      try rw [hr]
      try rw [hr] at hfalse
      cases b with
      | true => simp at hfalse
      | false =>
        simp only at hfalse ⊢
        have hm3 : MemoFalse st3.memo := by
          have := hrecM st2 hm2; rw [hr] at this; exact this rfl
        exact ih (setBcnt st3 st.ctrs.bcnt) hm3 hfalse
    | false =>
      rw [hpr, if_neg Bool.false_ne_true] at hfalse
      rw [if_neg Bool.false_ne_true]
      exact ih (setBcnt st2 st.ctrs.bcnt) hm2 hfalse

theorem tryCols_false_memo {κ : Type} (recur : SearchSt κ → Bool × SearchSt κ)
    (P : Puzzle) (pos : Nat) (rIdx : Fin 16) (isBX : Bool)
    (hrecM : ∀ s, MemoFalse s.memo → (recur s).1 = false → MemoFalse (recur s).2.memo) :
    ∀ (cols : List (Fin 4)) (st : SearchSt κ), MemoFalse st.memo →
      (tryCols recur P pos rIdx isBX cols st).1 = false →
      MemoFalse (tryCols recur P pos rIdx isBX cols st).2.memo := by
  intro cols
  induction cols with
  | nil => intro st hm _; exact hm
  | cons colX rest ih =>
    intro st hm hfalse
    rw [tryCols] at hfalse ⊢
    by_cases h1 : st.ctrs.xcap colX ≤ 0
    · rw [if_pos h1] at hfalse ⊢; exact ih st hm hfalse
    · rw [if_neg h1] at hfalse ⊢
      by_cases h2 : (isBX && decide (st.ctrs.bxcap colX ≤ 0)) = true
      · rw [if_pos h2] at hfalse ⊢; exact ih st hm hfalse
      · rw [if_neg h2] at hfalse ⊢
        rcases hp : tryPerms recur P pos rIdx (otherColsOf colX) (P.nonXPerms rIdx)
            (pushHist (placeX P rIdx colX isBX st)) with ⟨b, st2⟩
        try rw [hp]
        try rw [hp] at hfalse
        cases b with
        | true => simp at hfalse
        | false =>
          simp only at hfalse ⊢
          have hm1 : MemoFalse (pushHist (placeX P rIdx colX isBX st)).memo := by
            rw [pushHist_memo, placeX_memo]; exact hm
          have hm2 : MemoFalse st2.memo := by
            have := tryPerms_false_memo recur P pos rIdx (otherColsOf colX) hrecM
              (P.nonXPerms rIdx) (pushHist (placeX P rIdx colX isBX st)) hm1
            rw [hp] at this; exact this rfl
          refine ih _ ?_ hfalse
          rw [restoreX_memo]; exact hm2

theorem assignRow_false_memo {κ : Type} [DecidableEq κ] (P : Puzzle)
    (enc : Nat → Ctrs → κ) :
    ∀ (fuel pos : Nat) (st : SearchSt κ), MemoFalse st.memo →
      (assignRow P enc fuel pos st).1 = false →
      MemoFalse (assignRow P enc fuel pos st).2.memo := by
  intro fuel
  induction fuel with
  | zero => intro pos st hm _; exact hm
  | succ n ih =>
    intro pos st hm hfalse
    rw [assignRow] at hfalse ⊢
    by_cases h : pos < 16
    · rw [if_pos h] at hfalse ⊢
      rcases hm' : mfind st.memo (enc pos st.ctrs) with _ | b
      · rw [hm'] at hfalse
        rcases hc : tryCols (fun s => assignRow P enc n (pos + 1) s) P pos
            (P.rowAt pos) (P.xIsBX (P.rowAt pos)) colList st with ⟨b, st2⟩
        try rw [hc]
        try rw [hc] at hfalse
        cases b with
        | true => simp at hfalse
        | false =>
          simp only at hfalse ⊢
          have hm2 : MemoFalse st2.memo := by
            have := tryCols_false_memo (fun s => assignRow P enc n (pos + 1) s) P pos
              (P.rowAt pos) (P.xIsBX (P.rowAt pos)) (fun s => ih (pos + 1) s)
              colList st hm
            rw [hc] at this; exact this rfl
          intro kb hkb
          rcases List.mem_cons.mp hkb with rfl | hkb
          · rfl
          · exact hm2 kb hkb
      · exact hm
    · rw [if_neg h]; exact hm

/-! ### Which rows the search writes (groundwork for C1) -/

/-- The rows still to be placed from visitation position `pos` on. -/
def dropRows (P : Puzzle) (pos : Nat) : List (Fin 16) := P.rowOrder.drop pos

theorem rowOrder_nodup (P : Puzzle) : P.rowOrder.Nodup :=
  (List.perm_insertionSort _ _).nodup_iff.mpr (List.nodup_finRange 16)

theorem rowAt_eq_get (P : Puzzle) (pos : Nat) (h' : pos < P.rowOrder.length) :
    P.rowAt pos = P.rowOrder.get ⟨pos, h'⟩ := by
  simp [Puzzle.rowAt, List.getD_eq_getElem?_getD, List.getElem?_eq_getElem h']

theorem dropRows_cons (P : Puzzle) (pos : Nat) (h : pos < 16) :
    dropRows P pos = P.rowAt pos :: dropRows P (pos + 1) := by
  have h' : pos < P.rowOrder.length := by rw [rowOrder_length]; exact h
  rw [dropRows, List.drop_eq_getElem_cons h']
  rw [show P.rowAt pos = _ from rowAt_eq_get P pos h']
  rfl

theorem dropRows_subset (P : Puzzle) (pos : Nat) :
    dropRows P (pos + 1) ⊆ dropRows P pos := by
  unfold dropRows
  rw [← List.drop_drop 1 pos P.rowOrder]
  exact List.drop_subset _ _

theorem rowAt_mem_dropRows (P : Puzzle) (pos : Nat) (h : pos < 16) :
    P.rowAt pos ∈ dropRows P pos := by
  rw [dropRows_cons P pos h]; exact List.mem_cons_self _ _

theorem rowAt_not_mem_drop_succ (P : Puzzle) (pos : Nat) (h : pos < 16) :
    P.rowAt pos ∉ dropRows P (pos + 1) := by
  have hnd : (dropRows P pos).Nodup := (rowOrder_nodup P).sublist (List.drop_sublist _ _)
  rw [dropRows_cons P pos h] at hnd
  exact (List.nodup_cons.mp hnd).1

theorem placeWord_arr_ne {κ : Type} (P : Puzzle) (rIdx : Fin 16) (st : SearchSt κ)
    (wc : Fin 4 × Fin 4) (r' : Fin 16) (h : r' ≠ rIdx) :
    (placeWord P rIdx st wc).arr r' = st.arr r' := by
  simp [placeWord, Function.update_noteq h]

theorem placeWords_arr_ne {κ : Type} (P : Puzzle) (rIdx : Fin 16)
    (ps : List (Fin 4 × Fin 4)) (st : SearchSt κ) (r' : Fin 16) (h : r' ≠ rIdx) :
    (placeWords P rIdx ps st).arr r' = st.arr r' := by
  induction ps generalizing st with
  | nil => rfl
  | cons p rest ih =>
    rw [placeWords, List.foldl_cons, ← placeWords, ih, placeWord_arr_ne P rIdx st p r' h]

theorem placeX_arr_ne {κ : Type} (P : Puzzle) (rIdx : Fin 16) (colX : Fin 4)
    (isBX : Bool) (st : SearchSt κ) (r' : Fin 16) (h : r' ≠ rIdx) :
    (placeX P rIdx colX isBX st).arr r' = st.arr r' := by
  simp [placeX, Function.update_noteq h]

theorem tryPerms_arr {κ : Type} (recur : SearchSt κ → Bool × SearchSt κ)
    (P : Puzzle) (pos : Nat) (rIdx : Fin 16) (otherCols : List (Fin 4))
    (hrecA : ∀ s r', r' ∉ dropRows P (pos + 1) → (recur s).2.arr r' = s.arr r') :
    ∀ (perms : List (List (Fin 4))) (st : SearchSt κ) (r' : Fin 16),
      r' ≠ rIdx → r' ∉ dropRows P (pos + 1) →
      (tryPerms recur P pos rIdx otherCols perms st).2.arr r' = st.arr r' := by
  intro perms
  induction perms with
  | nil => intro st r' _ _; rfl
  | cons p3 rest ih =>
    intro st r' hne hnd
    rw [tryPerms]
    set st2 := pushHist (placeWords P rIdx (p3.zip otherCols) st) with hst2
    have harr2 : st2.arr r' = st.arr r' := by
      rw [hst2]; exact placeWords_arr_ne P rIdx _ st r' hne
    cases hpr : prunesLoop P.totB (16 - ((pos : Int) + 1)) st2.ctrs.bcnt colList with
    | true =>
      rw [if_pos rfl]
      rcases hr : recur st2 with ⟨b, st3⟩
      have harr3 : st3.arr r' = st2.arr r' := by
        have := hrecA st2 r' hnd; rw [hr] at this; exact this
      cases b with
      | true => simp only; rw [harr3, harr2]
      | false =>
        simp only
        rw [ih (setBcnt st3 st.ctrs.bcnt) r' hne hnd]
        show st3.arr r' = st.arr r'
        rw [harr3, harr2]
    | false =>
      rw [if_neg Bool.false_ne_true]
      rw [ih (setBcnt st2 st.ctrs.bcnt) r' hne hnd]
      exact harr2

theorem tryCols_arr {κ : Type} (recur : SearchSt κ → Bool × SearchSt κ)
    (P : Puzzle) (pos : Nat) (rIdx : Fin 16) (isBX : Bool)
    (hrecA : ∀ s r', r' ∉ dropRows P (pos + 1) → (recur s).2.arr r' = s.arr r') :
    ∀ (cols : List (Fin 4)) (st : SearchSt κ) (r' : Fin 16),
      r' ≠ rIdx → r' ∉ dropRows P (pos + 1) →
      (tryCols recur P pos rIdx isBX cols st).2.arr r' = st.arr r' := by
  intro cols
  induction cols with
  | nil => intro st r' _ _; rfl
  | cons colX rest ih =>
    intro st r' hne hnd
    rw [tryCols]
    by_cases h1 : st.ctrs.xcap colX ≤ 0
    · rw [if_pos h1]; exact ih st r' hne hnd
    · rw [if_neg h1]
      by_cases h2 : (isBX && decide (st.ctrs.bxcap colX ≤ 0)) = true
      · rw [if_pos h2]; exact ih st r' hne hnd
      · rw [if_neg h2]
        rcases hp : tryPerms recur P pos rIdx (otherColsOf colX) (P.nonXPerms rIdx)
            (pushHist (placeX P rIdx colX isBX st)) with ⟨b, st2⟩
        have harr2 : st2.arr r' = st.arr r' := by
          have := tryPerms_arr recur P pos rIdx (otherColsOf colX) hrecA
            (P.nonXPerms rIdx) (pushHist (placeX P rIdx colX isBX st)) r' hne hnd
          rw [hp] at this
          rw [this]
          exact placeX_arr_ne P rIdx colX isBX st r' hne
        cases b with
        | true => simp only; exact harr2
        | false =>
          simp only
          rw [ih _ r' hne hnd]
          exact harr2

theorem assignRow_arr {κ : Type} [DecidableEq κ] (P : Puzzle)
    (enc : Nat → Ctrs → κ) :
    ∀ (fuel pos : Nat) (st : SearchSt κ) (r' : Fin 16), r' ∉ dropRows P pos →
      (assignRow P enc fuel pos st).2.arr r' = st.arr r' := by
  intro fuel
  induction fuel with
  | zero => intro pos st r' _; rfl
  | succ n ih =>
    intro pos st r' hnd
    rw [assignRow]
    by_cases h : pos < 16
    · rw [if_pos h]
      have hne : r' ≠ P.rowAt pos := by
        intro heq; exact hnd (heq ▸ rowAt_mem_dropRows P pos h)
      have hnd' : r' ∉ dropRows P (pos + 1) :=
        fun hmem => hnd (dropRows_subset P pos hmem)
      rcases hm : mfind st.memo (enc pos st.ctrs) with _ | b
      · rcases hc : tryCols (fun s => assignRow P enc n (pos + 1) s) P pos
            (P.rowAt pos) (P.xIsBX (P.rowAt pos)) colList st with ⟨b, st2⟩
        have harr : st2.arr r' = st.arr r' := by
          have := tryCols_arr (fun s => assignRow P enc n (pos + 1) s) P pos
            (P.rowAt pos) (P.xIsBX (P.rowAt pos))
            (fun s r'' h'' => ih (pos + 1) s r'' h'') colList st r' hne hnd'
          rw [hc] at this; exact this
        cases b with
        | true => simp only; exact harr
        | false => simp only; exact harr
      · rfl
    · rw [if_neg h]

/-! ### Cell predicates and per-column counting (groundwork for C1) -/

/-- The cell holds a marked (`AX`/`BX`) word. -/
def cellXb : Option Word → Bool
  | some w => w.isX
  | none => false

/-- The cell holds a `BX` word. -/
def cellBXb : Option Word → Bool
  | some w => decide (w = Word.BX)
  | none => false

/-- The cell holds a flagged (`B`/`BX`) word. -/
def cellBb : Option Word → Bool
  | some w => w.hasB
  | none => false

/-- Number of rows of `rs` whose cell in column `c` satisfies `p`. -/
def countCol (arr : Fin 16 → Fin 4 → Option Word) (rs : List (Fin 16))
    (p : Option Word → Bool) (c : Fin 4) : Int :=
  (rs.countP (fun r => p (arr r c)) : Int)

theorem countCol_cons (arr : Fin 16 → Fin 4 → Option Word) (r : Fin 16)
    (rs : List (Fin 16)) (p : Option Word → Bool) (c : Fin 4) :
    countCol arr (r :: rs) p c
      = (if p (arr r c) then 1 else 0) + countCol arr rs p c := by
  unfold countCol
  rw [List.countP_cons]
  push_cast
  by_cases h : p (arr r c) = true <;> simp [h] <;> omega

theorem countCol_congr (arr arr' : Fin 16 → Fin 4 → Option Word)
    (rs : List (Fin 16)) (p : Option Word → Bool) (c : Fin 4)
    (h : ∀ r ∈ rs, arr r c = arr' r c) :
    countCol arr rs p c = countCol arr' rs p c := by
  unfold countCol
  congr 1
  exact List.countP_congr fun r hr => by rw [h r hr]

/-! ### Characterizing each placement's effect on its own row -/

theorem placeWord_arr_self_eq {κ : Type} (P : Puzzle) (rIdx : Fin 16)
    (st : SearchSt κ) (wc : Fin 4 × Fin 4) :
    (placeWord P rIdx st wc).arr rIdx wc.2 = some (P.wordAt rIdx wc.1) := by
  simp [placeWord]

theorem placeWord_arr_self_ne {κ : Type} (P : Puzzle) (rIdx : Fin 16)
    (st : SearchSt κ) (wc : Fin 4 × Fin 4) (c : Fin 4) (h : c ≠ wc.2) :
    (placeWord P rIdx st wc).arr rIdx c = st.arr rIdx c := by
  simp [placeWord, Function.update_noteq h]

theorem placeWords_arr_self_notmem {κ : Type} (P : Puzzle) (rIdx : Fin 16) :
    ∀ (ps : List (Fin 4 × Fin 4)) (st : SearchSt κ) (c : Fin 4),
      c ∉ ps.map Prod.snd →
      (placeWords P rIdx ps st).arr rIdx c = st.arr rIdx c := by
  intro ps
  induction ps with
  | nil => intro st c _; rfl
  | cons wc rest ih =>
    intro st c hc
    simp only [List.map_cons, List.mem_cons, not_or] at hc
    rw [placeWords, List.foldl_cons, ← placeWords, ih _ c hc.2,
      placeWord_arr_self_ne P rIdx st wc c hc.1]

theorem placeWords_arr_self_mem {κ : Type} (P : Puzzle) (rIdx : Fin 16) :
    ∀ (ps : List (Fin 4 × Fin 4)) (st : SearchSt κ),
      (ps.map Prod.snd).Nodup → ∀ wc ∈ ps,
      (placeWords P rIdx ps st).arr rIdx wc.2 = some (P.wordAt rIdx wc.1) := by
  intro ps
  induction ps with
  | nil => intro st _ wc hwc; cases hwc
  | cons wc0 rest ih =>
    intro st hnd wc hwc
    rw [List.map_cons, List.nodup_cons] at hnd
    rcases List.mem_cons.mp hwc with rfl | hwc
    · rw [placeWords, List.foldl_cons, ← placeWords,
        placeWords_arr_self_notmem P rIdx rest _ wc.2 hnd.1,
        placeWord_arr_self_eq]
    · rw [placeWords, List.foldl_cons, ← placeWords]
      exact ih _ hnd.2 wc hwc

theorem placeWords_bcnt {κ : Type} (P : Puzzle) (rIdx : Fin 16) :
    ∀ (ps : List (Fin 4 × Fin 4)) (st : SearchSt κ) (c : Fin 4),
      (placeWords P rIdx ps st).ctrs.bcnt c
        = st.ctrs.bcnt c
          + ((ps.countP fun wc => decide (wc.2 = c) && P.hasBAt rIdx wc.1 : Nat) : Int) := by
  intro ps
  induction ps with
  | nil => intro st c; simp [placeWords]
  | cons wc rest ih =>
    intro st c
    rw [placeWords, List.foldl_cons, ← placeWords, ih, List.countP_cons]
    have hstep : (placeWord P rIdx st wc).ctrs.bcnt c
        = st.ctrs.bcnt c
          + (if (decide (wc.2 = c) && P.hasBAt rIdx wc.1) = true then 1 else 0) := by
      simp only [placeWord]
      by_cases hB : P.hasBAt rIdx wc.1 = true
      · rw [if_pos hB]
        by_cases hc : wc.2 = c
        · subst hc
          simp [hB, Function.update_same]
        · rw [Function.update_noteq (Ne.symm hc)]
          simp [hB, hc]
      · rw [if_neg hB]
        simp only [Bool.and_eq_true, decide_eq_true_eq]
        rw [if_neg (by rintro ⟨-, h⟩; exact hB h)]
        simp
    rw [hstep]
    push_cast
    ring

theorem countP_snd_notmem (q : Fin 4 → Bool) (c : Fin 4) :
    ∀ (l : List (Fin 4 × Fin 4)), c ∉ l.map Prod.snd →
      l.countP (fun wc => decide (wc.2 = c) && q wc.1) = 0 := by
  intro l
  induction l with
  | nil => intro _; rfl
  | cons wc rest ih =>
    intro hc
    simp only [List.map_cons, List.mem_cons, not_or] at hc
    rw [List.countP_cons, ih hc.2]
    simp only [Bool.and_eq_true, decide_eq_true_eq]
    rw [if_neg (by rintro ⟨h, -⟩; exact hc.1 h.symm)]

theorem countP_snd_single (q : Fin 4 → Bool) (c : Fin 4) :
    ∀ (l : List (Fin 4 × Fin 4)), (l.map Prod.snd).Nodup →
      ∀ s : Fin 4, (s, c) ∈ l →
      l.countP (fun wc => decide (wc.2 = c) && q wc.1) = if q s then 1 else 0 := by
  intro l
  induction l with
  | nil => intro _ s hs; cases hs
  | cons wc rest ih =>
    intro hnd s hs
    rw [List.map_cons, List.nodup_cons] at hnd
    rcases List.mem_cons.mp hs with heq | hs
    · have h1 : wc.1 = s := by rw [← heq]
      have h2 : wc.2 = c := by rw [← heq]
      rw [List.countP_cons, countP_snd_notmem q c rest (h2 ▸ hnd.1), h1, h2]
      simp
    · have hcne : wc.2 ≠ c := by
        intro heq
        exact hnd.1 (heq ▸ List.mem_map_of_mem Prod.snd hs)
      rw [List.countP_cons]
      have hz : (if (decide (wc.2 = c) && q wc.1) = true then 1 else 0) = 0 := by
        rw [if_neg]
        simp only [Bool.and_eq_true, decide_eq_true_eq]
        rintro ⟨h, -⟩
        exact hcne h
      rw [hz, ih hnd.2 s hs]
      omega

/-! ### Small facts about columns, permutations and sorted rows -/

theorem otherColsOf_nodup : ∀ colX : Fin 4, (otherColsOf colX).Nodup := by decide

theorem otherColsOf_length : ∀ colX : Fin 4, (otherColsOf colX).length = 3 := by decide

theorem not_mem_otherColsOf_self : ∀ colX : Fin 4, colX ∉ otherColsOf colX := by decide

theorem mem_otherColsOf : ∀ c colX : Fin 4, c ∈ otherColsOf colX ↔ c ≠ colX := by decide

theorem cons_otherColsOf_perm : ∀ colX : Fin 4,
    (colX :: otherColsOf colX).Perm colList := by decide

theorem finRange_four_eq_colList : List.finRange 4 = colList := by decide

theorem uniquePerms3_perm :
    ∀ w1 w2 w3 : Word, ∀ p3 ∈ uniquePerms3 w1 w2 w3, p3.Perm [1, 2, 3] := by decide

theorem nonXPerms_perm (P : Puzzle) (r : Fin 16) :
    ∀ p3 ∈ P.nonXPerms r, p3.Perm ([1, 2, 3] : List (Fin 4)) :=
  uniquePerms3_perm (P.wordAt r 1) (P.wordAt r 2) (P.wordAt r 3)

theorem word_not_isX_ne_BX : ∀ w : Word, w.isX = false → decide (w = Word.BX) = false := by
  decide

theorem mem_p3_ne_zero {p3 : List (Fin 4)} (hp3 : p3.Perm ([1, 2, 3] : List (Fin 4)))
    {s : Fin 4} (hs : s ∈ p3) : s ≠ 0 := by
  have := hp3.mem_iff.mp hs
  fin_cases this <;> decide

/-- Each puzzle row, after canonical sorting, has its unique X word in
slot 0: this is the well-formedness condition the solver relies on. -/
def RowsOK (P : Puzzle) : Prop :=
  ∀ r : Fin 16, (P.wordAt r 0).isX = true ∧ ∀ k : Fin 4, k ≠ 0 → (P.wordAt r k).isX = false

theorem sorted_one_X :
    ∀ a b c d : Word,
      a.orderRank ≤ b.orderRank → b.orderRank ≤ c.orderRank →
      c.orderRank ≤ d.orderRank →
      ([a, b, c, d].countP (·.isX)) = 1 →
      a.isX = true ∧ b.isX = false ∧ c.isX = false ∧ d.isX = false := by decide

/-! ### Effect of `placeX` on its own row and counters -/

theorem placeX_arr_self_colX {κ : Type} (P : Puzzle) (rIdx : Fin 16) (colX : Fin 4)
    (isBX : Bool) (st : SearchSt κ) :
    (placeX P rIdx colX isBX st).arr rIdx colX = some (P.wordAt rIdx 0) := by
  simp [placeX]

theorem placeX_arr_self_ne {κ : Type} (P : Puzzle) (rIdx : Fin 16) (colX : Fin 4)
    (isBX : Bool) (st : SearchSt κ) (c : Fin 4) (h : c ≠ colX) :
    (placeX P rIdx colX isBX st).arr rIdx c = st.arr rIdx c := by
  simp [placeX, Function.update_noteq h]

theorem placeX_xcap {κ : Type} (P : Puzzle) (rIdx : Fin 16) (colX : Fin 4)
    (isBX : Bool) (st : SearchSt κ) (c : Fin 4) :
    (placeX P rIdx colX isBX st).ctrs.xcap c
      = st.ctrs.xcap c - (if c = colX then 1 else 0) := by
  simp only [placeX]
  by_cases h : c = colX
  · subst h; rw [if_pos rfl, Function.update_same]
  · rw [if_neg h, Function.update_noteq h]; omega

theorem placeX_bxcap {κ : Type} (P : Puzzle) (rIdx : Fin 16) (colX : Fin 4)
    (isBX : Bool) (st : SearchSt κ) (c : Fin 4) :
    (placeX P rIdx colX isBX st).ctrs.bxcap c
      = st.ctrs.bxcap c - (if isBX = true ∧ c = colX then 1 else 0) := by
  simp only [placeX]
  cases isBX with
  | false => simp
  | true =>
    rw [if_pos rfl]
    by_cases h : c = colX
    · subst h; rw [Function.update_same, if_pos ⟨rfl, rfl⟩]
    · rw [Function.update_noteq h, if_neg (by rintro ⟨-, hc⟩; exact h hc)]
      omega

theorem placeX_bcnt {κ : Type} (P : Puzzle) (rIdx : Fin 16) (colX : Fin 4)
    (isBX : Bool) (st : SearchSt κ) (c : Fin 4) :
    (placeX P rIdx colX isBX st).ctrs.bcnt c
      = st.ctrs.bcnt c + (if c = colX ∧ P.hasBAt rIdx 0 = true then 1 else 0) := by
  simp only [placeX]
  by_cases hB : P.hasBAt rIdx 0 = true
  · rw [if_pos hB]
    by_cases h : c = colX
    · subst h; rw [Function.update_same, if_pos ⟨rfl, hB⟩]
    · rw [Function.update_noteq h, if_neg (by rintro ⟨hc, -⟩; exact h hc)]
      omega
  · rw [if_neg hB, if_neg (by rintro ⟨-, h⟩; exact hB h)]
    omega

/-! ### The postcondition of a successful search (C1) -/

/-- What a `true` return of `assignRow` at position `pos` guarantees:
rows before `pos` in visitation order are untouched; every remaining row's
cells are a permutation of its words; the counters account exactly for the
placed cells; and the final-state checks hold. -/
def PostTrue {κ : Type} (P : Puzzle) (pos : Nat) (stIn stOut : SearchSt κ) : Prop :=
  (∀ r, r ∉ dropRows P pos → stOut.arr r = stIn.arr r) ∧
  (∀ r ∈ dropRows P pos,
    (List.ofFn fun k => stOut.arr r k).Perm (List.ofFn fun k => some (P.wordAt r k))) ∧
  (∀ c : Fin 4,
    stOut.ctrs.xcap c = stIn.ctrs.xcap c - countCol stOut.arr (dropRows P pos) cellXb c ∧
    stOut.ctrs.bxcap c
      = stIn.ctrs.bxcap c - countCol stOut.arr (dropRows P pos) cellBXb c ∧
    stOut.ctrs.bcnt c
      = stIn.ctrs.bcnt c + countCol stOut.arr (dropRows P pos) cellBb c) ∧
  (∀ c : Fin 4, stOut.ctrs.xcap c = 0 ∧ 4 ≤ stOut.ctrs.bcnt c ∧ 0 ≤ stOut.ctrs.bxcap c)

/-- What a `true` return of the permutation loop guarantees, relative to
the state holding the already-placed X word. -/
def TPost {κ : Type} (P : Puzzle) (pos : Nat) (rIdx : Fin 16) (colX : Fin 4)
    (p3 : List (Fin 4)) (stIn stOut : SearchSt κ) : Prop :=
  (∀ r', r' ≠ rIdx → r' ∉ dropRows P (pos + 1) → stOut.arr r' = stIn.arr r') ∧
  (∀ r ∈ dropRows P (pos + 1),
    (List.ofFn fun k => stOut.arr r k).Perm (List.ofFn fun k => some (P.wordAt r k))) ∧
  (∀ wc ∈ p3.zip (otherColsOf colX),
    stOut.arr rIdx wc.2 = some (P.wordAt rIdx wc.1)) ∧
  (∀ c, c ∉ otherColsOf colX → stOut.arr rIdx c = stIn.arr rIdx c) ∧
  (∀ c : Fin 4,
    stOut.ctrs.xcap c
      = stIn.ctrs.xcap c - countCol stOut.arr (dropRows P (pos + 1)) cellXb c ∧
    stOut.ctrs.bxcap c
      = stIn.ctrs.bxcap c - countCol stOut.arr (dropRows P (pos + 1)) cellBXb c ∧
    stOut.ctrs.bcnt c
      = stIn.ctrs.bcnt c
        + (((p3.zip (otherColsOf colX)).countP
            fun wc => decide (wc.2 = c) && P.hasBAt rIdx wc.1 : Nat) : Int)
        + countCol stOut.arr (dropRows P (pos + 1)) cellBb c) ∧
  (∀ c : Fin 4, stOut.ctrs.xcap c = 0 ∧ 4 ≤ stOut.ctrs.bcnt c ∧ 0 ≤ stOut.ctrs.bxcap c)

/-- Transport a `TPost` along a change of reference state that agrees on
counters, on the untouched rows and on row `rIdx`'s untouched cells. -/
theorem TPost_mono {κ : Type} (P : Puzzle) (pos : Nat) (rIdx : Fin 16) (colX : Fin 4)
    (p3 : List (Fin 4)) (stIn stIn' stOut : SearchSt κ)
    (h : TPost P pos rIdx colX p3 stIn' stOut)
    (hc : stIn'.ctrs = stIn.ctrs)
    (ha : ∀ r', r' ≠ rIdx → r' ∉ dropRows P (pos + 1) → stIn'.arr r' = stIn.arr r')
    (hr : ∀ c, c ∉ otherColsOf colX → stIn'.arr rIdx c = stIn.arr rIdx c) :
    TPost P pos rIdx colX p3 stIn stOut := by
  obtain ⟨h1, h2, h3, h4, h5, h6⟩ := h
  refine ⟨?_, h2, h3, ?_, ?_, h6⟩
  · intro r' hne hnd
    rw [h1 r' hne hnd, ha r' hne hnd]
  · intro c hcmem
    rw [h4 c hcmem, hr c hcmem]
  · intro c
    rw [← hc]
    exact h5 c

/-- A `true` return of the permutation loop yields a witnessing permutation
and the `TPost` postcondition relative to the entry state. -/
theorem tryPerms_true {κ : Type} (recur : SearchSt κ → Bool × SearchSt κ)
    (P : Puzzle) (pos : Nat) (rIdx : Fin 16) (colX : Fin 4)
    (hrecf : ∀ s, (recur s).1 = false → (recur s).2.ctrs = s.ctrs)
    (hrecM : ∀ s, MemoFalse s.memo → (recur s).1 = false → MemoFalse (recur s).2.memo)
    (hrecA : ∀ s r', r' ∉ dropRows P (pos + 1) → (recur s).2.arr r' = s.arr r')
    (hrecT : ∀ s, MemoFalse s.memo → (recur s).1 = true → PostTrue P (pos + 1) s (recur s).2)
    (hrIdx : rIdx ∉ dropRows P (pos + 1)) :
    ∀ (perms : List (List (Fin 4))) (st : SearchSt κ), MemoFalse st.memo →
      (∀ p3 ∈ perms, p3.Perm ([1, 2, 3] : List (Fin 4))) →
      (tryPerms recur P pos rIdx (otherColsOf colX) perms st).1 = true →
      ∃ p3, p3.Perm ([1, 2, 3] : List (Fin 4)) ∧
        TPost P pos rIdx colX p3 st
          (tryPerms recur P pos rIdx (otherColsOf colX) perms st).2 := by
  intro perms
  induction perms with
  | nil =>
    intro st _ _ htrue
    simp [tryPerms] at htrue
  | cons p3 rest ih =>
    intro st hm hall htrue
    rw [tryPerms] at htrue ⊢
    set st2 := pushHist (placeWords P rIdx (p3.zip (otherColsOf colX)) st) with hst2
    have hm2 : MemoFalse st2.memo := by
      rw [hst2, pushHist_memo, placeWords_memo]; exact hm
    have hx2 : st2.ctrs.xcap = st.ctrs.xcap := by
      rw [hst2]; exact placeWords_xcap ..
    have hbx2 : st2.ctrs.bxcap = st.ctrs.bxcap := by
      rw [hst2]; exact placeWords_bxcap ..
    have hb2 : ∀ c, st2.ctrs.bcnt c
        = st.ctrs.bcnt c
          + (((p3.zip (otherColsOf colX)).countP
              fun wc => decide (wc.2 = c) && P.hasBAt rIdx wc.1 : Nat) : Int) := by
      intro c; rw [hst2]; exact placeWords_bcnt P rIdx _ st c
    have hlen3 : p3.length = 3 := by
      have := (hall p3 (List.mem_cons_self p3 rest)).length_eq
      simpa using this
    have hsnd : (p3.zip (otherColsOf colX)).map Prod.snd = otherColsOf colX :=
      List.map_snd_zip p3 (otherColsOf colX)
        (by rw [hlen3, otherColsOf_length colX])
    cases hpr : prunesLoop P.totB (16 - ((pos : Int) + 1)) st2.ctrs.bcnt colList with
    | true =>
      rw [hpr, if_pos rfl] at htrue
      rw [if_pos rfl]
      rcases hr : recur st2 with ⟨b, st3⟩
      try rw [hr]
      try rw [hr] at htrue
      cases b with
      | true =>
        simp only at htrue ⊢
        have hpost : PostTrue P (pos + 1) st2 st3 := by
          have := hrecT st2 hm2; rw [hr] at this; exact this rfl
        obtain ⟨q1, q2, q3, q4⟩ := hpost
        refine ⟨p3, hall p3 (List.mem_cons_self p3 rest), ?_, q2, ?_, ?_, ?_, q4⟩
        · intro r' hne hnd
          rw [q1 r' hnd, hst2]
          exact placeWords_arr_ne P rIdx _ st r' hne
        · intro wc hwc
          rw [q1 rIdx hrIdx, hst2]
          exact placeWords_arr_self_mem P rIdx (p3.zip (otherColsOf colX)) st
            (by rw [hsnd]; exact otherColsOf_nodup colX) wc hwc
        · intro c hcmem
          rw [q1 rIdx hrIdx, hst2]
          exact placeWords_arr_self_notmem P rIdx _ st c (by rw [hsnd]; exact hcmem)
        · intro c
          obtain ⟨qx, qbx, qb⟩ := q3 c
          refine ⟨?_, ?_, ?_⟩
          · rw [qx, hx2]
          · rw [qbx, hbx2]
          · rw [qb, hb2 c]
      | false =>
        simp only at htrue ⊢
        have h3 : st3.ctrs = st2.ctrs := by
          have := hrecf st2; rw [hr] at this; exact this rfl
        have hm3 : MemoFalse st3.memo := by
          have := hrecM st2 hm2; rw [hr] at this; exact this rfl
        have ha3 : ∀ r', r' ∉ dropRows P (pos + 1) → st3.arr r' = st2.arr r' := by
          intro r' hnd
          have := hrecA st2 r' hnd; rw [hr] at this; exact this
        have hm' : MemoFalse (setBcnt st3 st.ctrs.bcnt).memo := by
          rw [setBcnt_memo]; exact hm3
        obtain ⟨p3', hp3', htp⟩ :=
          ih (setBcnt st3 st.ctrs.bcnt) hm'
            (fun p hp => hall p (List.mem_cons_of_mem p3 hp)) htrue
        refine ⟨p3', hp3', TPost_mono P pos rIdx colX p3' st _ _ htp ?_ ?_ ?_⟩
        · refine Ctrs.ext3 ?_ ?_ rfl
          · show st3.ctrs.xcap = st.ctrs.xcap
            rw [h3, hx2]
          · show st3.ctrs.bxcap = st.ctrs.bxcap
            rw [h3, hbx2]
        · intro r' hne hnd
          show st3.arr r' = st.arr r'
          rw [ha3 r' hnd, hst2]
          exact placeWords_arr_ne P rIdx _ st r' hne
        · intro c hcmem
          show st3.arr rIdx c = st.arr rIdx c
          rw [ha3 rIdx hrIdx, hst2]
          exact placeWords_arr_self_notmem P rIdx _ st c (by rw [hsnd]; exact hcmem)
    | false =>
      rw [hpr, if_neg Bool.false_ne_true] at htrue
      rw [if_neg Bool.false_ne_true]
      have hm2' : MemoFalse (setBcnt st2 st.ctrs.bcnt).memo := by
        rw [setBcnt_memo]; exact hm2
      obtain ⟨p3', hp3', htp⟩ :=
        ih (setBcnt st2 st.ctrs.bcnt) hm2'
          (fun p hp => hall p (List.mem_cons_of_mem p3 hp)) htrue
      refine ⟨p3', hp3', TPost_mono P pos rIdx colX p3' st _ _ htp ?_ ?_ ?_⟩
      · refine Ctrs.ext3 ?_ ?_ rfl
        · show st2.ctrs.xcap = st.ctrs.xcap
          exact hx2
        · show st2.ctrs.bxcap = st.ctrs.bxcap
          exact hbx2
      · intro r' hne hnd
        show st2.arr r' = st.arr r'
        rw [hst2]
        exact placeWords_arr_ne P rIdx _ st r' hne
      · intro c hcmem
        show st2.arr rIdx c = st.arr rIdx c
        rw [hst2]
        exact placeWords_arr_self_notmem P rIdx _ st c (by rw [hsnd]; exact hcmem)

/-- What a `true` return of the column loop guarantees, relative to the
state before the X word was placed. -/
def CPost {κ : Type} (P : Puzzle) (pos : Nat) (rIdx : Fin 16) (isBX : Bool)
    (colX : Fin 4) (p3 : List (Fin 4)) (stIn stOut : SearchSt κ) : Prop :=
  (∀ r', r' ≠ rIdx → r' ∉ dropRows P (pos + 1) → stOut.arr r' = stIn.arr r') ∧
  (∀ r ∈ dropRows P (pos + 1),
    (List.ofFn fun k => stOut.arr r k).Perm (List.ofFn fun k => some (P.wordAt r k))) ∧
  (stOut.arr rIdx colX = some (P.wordAt rIdx 0)) ∧
  (∀ wc ∈ p3.zip (otherColsOf colX),
    stOut.arr rIdx wc.2 = some (P.wordAt rIdx wc.1)) ∧
  (∀ c : Fin 4,
    stOut.ctrs.xcap c
      = stIn.ctrs.xcap c - (if c = colX then 1 else 0)
        - countCol stOut.arr (dropRows P (pos + 1)) cellXb c ∧
    stOut.ctrs.bxcap c
      = stIn.ctrs.bxcap c - (if isBX = true ∧ c = colX then 1 else 0)
        - countCol stOut.arr (dropRows P (pos + 1)) cellBXb c ∧
    stOut.ctrs.bcnt c
      = stIn.ctrs.bcnt c + (if c = colX ∧ P.hasBAt rIdx 0 = true then 1 else 0)
        + (((p3.zip (otherColsOf colX)).countP
            fun wc => decide (wc.2 = c) && P.hasBAt rIdx wc.1 : Nat) : Int)
        + countCol stOut.arr (dropRows P (pos + 1)) cellBb c) ∧
  (∀ c : Fin 4, stOut.ctrs.xcap c = 0 ∧ 4 ≤ stOut.ctrs.bcnt c ∧ 0 ≤ stOut.ctrs.bxcap c)

/-- Transport a `CPost` along a change of reference state that agrees on
counters and on the rows other than `rIdx` and the remaining ones. -/
theorem CPost_mono {κ : Type} (P : Puzzle) (pos : Nat) (rIdx : Fin 16) (isBX : Bool)
    (colX : Fin 4) (p3 : List (Fin 4)) (stIn stIn' stOut : SearchSt κ)
    (h : CPost P pos rIdx isBX colX p3 stIn' stOut)
    (hc : stIn'.ctrs = stIn.ctrs)
    (ha : ∀ r', r' ≠ rIdx → r' ∉ dropRows P (pos + 1) → stIn'.arr r' = stIn.arr r') :
    CPost P pos rIdx isBX colX p3 stIn stOut := by
  obtain ⟨h1, h2, h3, h4, h5, h6⟩ := h
  refine ⟨?_, h2, h3, h4, ?_, h6⟩
  · intro r' hne hnd
    rw [h1 r' hne hnd, ha r' hne hnd]
  · intro c
    rw [← hc]
    exact h5 c

/-- A `true` return of the column loop yields a witnessing column and
permutation and the `CPost` postcondition relative to the entry state. -/
theorem tryCols_true {κ : Type} (recur : SearchSt κ → Bool × SearchSt κ)
    (P : Puzzle) (pos : Nat) (rIdx : Fin 16) (isBX : Bool)
    (hrecf : ∀ s, (recur s).1 = false → (recur s).2.ctrs = s.ctrs)
    (hrecM : ∀ s, MemoFalse s.memo → (recur s).1 = false → MemoFalse (recur s).2.memo)
    (hrecA : ∀ s r', r' ∉ dropRows P (pos + 1) → (recur s).2.arr r' = s.arr r')
    (hrecT : ∀ s, MemoFalse s.memo → (recur s).1 = true → PostTrue P (pos + 1) s (recur s).2)
    (hrIdx : rIdx ∉ dropRows P (pos + 1)) :
    ∀ (cols : List (Fin 4)) (st : SearchSt κ), MemoFalse st.memo →
      (tryCols recur P pos rIdx isBX cols st).1 = true →
      ∃ (colX : Fin 4) (p3 : List (Fin 4)), p3.Perm ([1, 2, 3] : List (Fin 4)) ∧
        CPost P pos rIdx isBX colX p3 st
          (tryCols recur P pos rIdx isBX cols st).2 := by
  intro cols
  induction cols with
  | nil =>
    intro st _ htrue
    simp [tryCols] at htrue
  | cons colX rest ih =>
    intro st hm htrue
    rw [tryCols] at htrue ⊢
    by_cases h1 : st.ctrs.xcap colX ≤ 0
    · rw [if_pos h1] at htrue ⊢; exact ih st hm htrue
    · rw [if_neg h1] at htrue ⊢
      by_cases h2 : (isBX && decide (st.ctrs.bxcap colX ≤ 0)) = true
      · rw [if_pos h2] at htrue ⊢; exact ih st hm htrue
      · rw [if_neg h2] at htrue ⊢
        set st1 := pushHist (placeX P rIdx colX isBX st) with hst1
        have hm1 : MemoFalse st1.memo := by
          rw [hst1, pushHist_memo, placeX_memo]; exact hm
        rcases hp : tryPerms recur P pos rIdx (otherColsOf colX) (P.nonXPerms rIdx) st1
          with ⟨b, st'⟩
        try rw [hp]
        try rw [hp] at htrue
        cases b with
        | true =>
          simp only at htrue ⊢
          have htp : ∃ p3, p3.Perm ([1, 2, 3] : List (Fin 4)) ∧
              TPost P pos rIdx colX p3 st1
                (tryPerms recur P pos rIdx (otherColsOf colX) (P.nonXPerms rIdx) st1).2 :=
            tryPerms_true recur P pos rIdx colX hrecf hrecM hrecA hrecT hrIdx
              (P.nonXPerms rIdx) st1 hm1 (nonXPerms_perm P rIdx) (by rw [hp])
          rw [hp] at htp
          obtain ⟨p3, hp3, t1, t2, t3, t4, t5, t6⟩ := htp
          refine ⟨colX, p3, hp3, ?_, t2, ?_, t3, ?_, t6⟩
          · intro r' hne hnd
            rw [t1 r' hne hnd, hst1]
            exact placeX_arr_ne P rIdx colX isBX st r' hne
          · rw [t4 colX (not_mem_otherColsOf_self colX), hst1]
            exact placeX_arr_self_colX P rIdx colX isBX st
          · intro c
            obtain ⟨tx, tbx, tb⟩ := t5 c
            have hx1 : st1.ctrs.xcap c = st.ctrs.xcap c - (if c = colX then 1 else 0) := by
              rw [hst1]; exact placeX_xcap P rIdx colX isBX st c
            have hbx1 : st1.ctrs.bxcap c
                = st.ctrs.bxcap c - (if isBX = true ∧ c = colX then 1 else 0) := by
              rw [hst1]; exact placeX_bxcap P rIdx colX isBX st c
            have hb1 : st1.ctrs.bcnt c
                = st.ctrs.bcnt c + (if c = colX ∧ P.hasBAt rIdx 0 = true then 1 else 0) := by
              rw [hst1]; exact placeX_bcnt P rIdx colX isBX st c
            refine ⟨?_, ?_, ?_⟩
            · rw [tx, hx1]
            · rw [tbx, hbx1]
            · rw [tb, hb1]
        | false =>
          simp only at htrue ⊢
          have hpc : st'.ctrs = st1.ctrs := by
            have := tryPerms_false_ctrs recur P pos rIdx (otherColsOf colX) hrecf
              (P.nonXPerms rIdx) st1
            rw [hp] at this; exact this rfl
          have hx1 : st1.ctrs.xcap
              = Function.update st.ctrs.xcap colX (st.ctrs.xcap colX - 1) := by
            rw [hst1]; rfl
          have hbx1 : st1.ctrs.bxcap = st.ctrs.bxcap ∨
              st1.ctrs.bxcap
                = Function.update st.ctrs.bxcap colX (st.ctrs.bxcap colX - 1) := by
            cases isBX with
            | true => right; rw [hst1]; rfl
            | false => left; rw [hst1]; rfl
          have hrc : (restoreX st' colX (st.ctrs.xcap colX) (st.ctrs.bxcap colX)
              st.ctrs.bcnt).ctrs = st.ctrs :=
            restoreX_ctrs st' st colX (hpc ▸ hx1) (hpc ▸ hbx1)
          have hm' : MemoFalse (restoreX st' colX (st.ctrs.xcap colX) (st.ctrs.bxcap colX)
              st.ctrs.bcnt).memo := by
            rw [restoreX_memo]
            have := tryPerms_false_memo recur P pos rIdx (otherColsOf colX) hrecM
              (P.nonXPerms rIdx) st1 hm1
            rw [hp] at this; exact this rfl
          obtain ⟨colX', p3', hp3', hcp⟩ := ih _ hm' htrue
          refine ⟨colX', p3', hp3', CPost_mono P pos rIdx isBX colX' p3' st _ _ hcp hrc ?_⟩
          · intro r' hne hnd
            show st'.arr r' = st.arr r'
            have := tryPerms_arr recur P pos rIdx (otherColsOf colX) hrecA
              (P.nonXPerms rIdx) st1 r' hne hnd
            rw [hp] at this
            rw [this, hst1]
            exact placeX_arr_ne P rIdx colX isBX st r' hne

theorem dropRows_eq_nil (P : Puzzle) (pos : Nat) (h : 16 ≤ pos) :
    dropRows P pos = [] := by
  rw [dropRows]
  exact List.drop_eq_nil_of_le (by rw [rowOrder_length]; omega)

theorem finalCheck_eq_true_iff (c : Ctrs) :
    finalCheck c = true ↔ ∀ i : Fin 4, c.xcap i = 0 ∧ 4 ≤ c.bcnt i ∧ 0 ≤ c.bxcap i := by
  simp [finalCheck, List.all_eq_true, List.mem_finRange, and_assoc]

theorem ofFn_perm_of_pairs (f : Fin 4 → Option Word) (w : Fin 4 → Word)
    (pairs : List (Fin 4 × Fin 4))
    (h1 : (pairs.map Prod.fst).Perm colList)
    (h2 : (pairs.map Prod.snd).Perm colList)
    (hcell : ∀ wc ∈ pairs, f wc.2 = some (w wc.1)) :
    (List.ofFn f).Perm (List.ofFn fun k => some (w k)) := by
  have hofn : ∀ (g : Fin 4 → Option Word), List.ofFn g = colList.map g := by
    intro g
    rw [List.ofFn_eq_map, finRange_four_eq_colList]
  rw [hofn f, hofn (fun k => some (w k))]
  have hb : (pairs.map Prod.snd).map f = (pairs.map Prod.fst).map (fun k => some (w k)) := by
    rw [List.map_map, List.map_map]
    exact List.map_congr_left fun a ha => hcell a ha
  have s1 : (colList.map f).Perm ((pairs.map Prod.snd).map f) := (h2.map f).symm
  rw [hb] at s1
  exact s1.trans (h1.map _)

set_option maxHeartbeats 1600000 in
/-- Assemble the position-`pos` postcondition from the column-loop
postcondition, using the row shape guaranteed by `RowsOK`. -/
theorem postTrue_of_cPost {κ : Type} (P : Puzzle) (pos : Nat) (h : pos < 16)
    (hrows : RowsOK P) (colX : Fin 4) (p3 : List (Fin 4))
    (hp3 : p3.Perm ([1, 2, 3] : List (Fin 4))) (st stOut : SearchSt κ)
    (hcp : CPost P pos (P.rowAt pos) (P.xIsBX (P.rowAt pos)) colX p3 st stOut) :
    PostTrue P pos st stOut := by
  obtain ⟨c1, c2, c3, c4, c5, c6⟩ := hcp
  have hlen3 : p3.length = 3 := by simpa using hp3.length_eq
  have hsnd : (p3.zip (otherColsOf colX)).map Prod.snd = otherColsOf colX :=
    List.map_snd_zip p3 _ (by rw [hlen3, otherColsOf_length colX])
  have hfst : (p3.zip (otherColsOf colX)).map Prod.fst = p3 :=
    List.map_fst_zip p3 _ (by rw [hlen3, otherColsOf_length colX])
  have hcellO : ∀ c, c ≠ colX → ∃ s, s ∈ p3 ∧ (s, c) ∈ p3.zip (otherColsOf colX) ∧
      stOut.arr (P.rowAt pos) c = some (P.wordAt (P.rowAt pos) s) := by
    intro c hc
    have hcmem : c ∈ (p3.zip (otherColsOf colX)).map Prod.snd := by
      rw [hsnd]; exact (mem_otherColsOf c colX).mpr hc
    obtain ⟨wc, hwc, hwc2⟩ := List.mem_map.mp hcmem
    have heq : (wc.1, c) = wc := by rw [← hwc2]
    refine ⟨wc.1, ?_, heq ▸ hwc, ?_⟩
    · rw [← hfst]; exact List.mem_map.mpr ⟨wc, hwc, rfl⟩
    · rw [← hwc2]; exact c4 wc hwc
  have hXtrue : cellXb (stOut.arr (P.rowAt pos) colX) = true := by
    rw [c3]; exact (hrows (P.rowAt pos)).1
  have hXfalse : ∀ c, c ≠ colX → cellXb (stOut.arr (P.rowAt pos) c) = false := by
    intro c hc
    obtain ⟨s, hs, -, hcell⟩ := hcellO c hc
    rw [hcell]
    exact (hrows (P.rowAt pos)).2 s (mem_p3_ne_zero hp3 hs)
  have hBXcol : cellBXb (stOut.arr (P.rowAt pos) colX) = P.xIsBX (P.rowAt pos) := by
    rw [c3]; rfl
  have hBXfalse : ∀ c, c ≠ colX → cellBXb (stOut.arr (P.rowAt pos) c) = false := by
    intro c hc
    obtain ⟨s, hs, -, hcell⟩ := hcellO c hc
    rw [hcell]
    exact word_not_isX_ne_BX _ ((hrows (P.rowAt pos)).2 s (mem_p3_ne_zero hp3 hs))
  have hBcol : cellBb (stOut.arr (P.rowAt pos) colX) = P.hasBAt (P.rowAt pos) 0 := by
    rw [c3]; rfl
  refine ⟨?_, ?_, ?_, c6⟩
  · intro r hnd
    rw [dropRows_cons P pos h, List.mem_cons] at hnd
    push_neg at hnd
    exact c1 r hnd.1 hnd.2
  · intro r hr
    rw [dropRows_cons P pos h, List.mem_cons] at hr
    rcases hr with rfl | hr
    · refine ofFn_perm_of_pairs (stOut.arr (P.rowAt pos)) (P.wordAt (P.rowAt pos))
        ((0, colX) :: p3.zip (otherColsOf colX)) ?_ ?_ ?_
      · rw [List.map_cons, hfst]
        exact hp3.cons 0
      · rw [List.map_cons, hsnd]
        exact cons_otherColsOf_perm colX
      · intro wc hwc
        rcases List.mem_cons.mp hwc with rfl | hwc
        · exact c3
        · exact c4 wc hwc
    · exact c2 r hr
  · intro c
    obtain ⟨cx, cbx, cb⟩ := c5 c
    have ex : (if cellXb (stOut.arr (P.rowAt pos) c) then (1 : Int) else 0)
        = (if c = colX then 1 else 0) := by
      by_cases hcc : c = colX
      · subst hcc; rw [hXtrue, if_pos rfl, if_pos rfl]
      · rw [hXfalse c hcc, if_neg Bool.false_ne_true, if_neg hcc]
    have ebx : (if cellBXb (stOut.arr (P.rowAt pos) c) then (1 : Int) else 0)
        = (if P.xIsBX (P.rowAt pos) = true ∧ c = colX then 1 else 0) := by
      by_cases hcc : c = colX
      · subst hcc
        rw [hBXcol]
        cases hbx : P.xIsBX (P.rowAt pos) with
        | true => rw [if_pos rfl, if_pos ⟨rfl, rfl⟩]
        | false =>
          rw [if_neg Bool.false_ne_true,
            if_neg (by rintro ⟨h', -⟩; exact Bool.false_ne_true h')]
      · rw [hBXfalse c hcc, if_neg Bool.false_ne_true,
          if_neg (by rintro ⟨-, h'⟩; exact hcc h')]
    have eb : (if cellBb (stOut.arr (P.rowAt pos) c) then (1 : Int) else 0)
        = (if c = colX ∧ P.hasBAt (P.rowAt pos) 0 = true then 1 else 0)
          + (((p3.zip (otherColsOf colX)).countP
              fun wc => decide (wc.2 = c) && P.hasBAt (P.rowAt pos) wc.1 : Nat) : Int) := by
      by_cases hcc : c = colX
      · subst hcc
        rw [hBcol, countP_snd_notmem _ c _
          (by rw [hsnd]; exact not_mem_otherColsOf_self c)]
        by_cases hb : P.hasBAt (P.rowAt pos) 0 = true
        · rw [if_pos hb, if_pos ⟨rfl, hb⟩]; simp
        · rw [if_neg hb, if_neg (by rintro ⟨-, h'⟩; exact hb h')]; simp
      · obtain ⟨s, hs, hszip, hcell⟩ := hcellO c hcc
        have hz : (if c = colX ∧ P.hasBAt (P.rowAt pos) 0 = true then (1 : Int) else 0)
            = 0 := if_neg (by rintro ⟨h', -⟩; exact hcc h')
        rw [hcell, countP_snd_single _ c _
          (by rw [hsnd]; exact otherColsOf_nodup colX) s hszip, hz]
        show (if (P.wordAt (P.rowAt pos) s).hasB = true then (1 : Int) else 0)
          = 0 + ((if (P.wordAt (P.rowAt pos) s).hasB = true then (1 : Nat) else 0 : Nat) : Int)
        by_cases hb : (P.wordAt (P.rowAt pos) s).hasB = true
        · rw [if_pos hb, if_pos hb]; simp
        · rw [if_neg hb, if_neg hb]; simp
    refine ⟨?_, ?_, ?_⟩
    · rw [dropRows_cons P pos h, countCol_cons, ex, cx]
      ring
    · rw [dropRows_cons P pos h, countCol_cons, ebx, cbx]
      ring
    · rw [dropRows_cons P pos h, countCol_cons, eb, cb]
      ring

/-- A `true` return of `assignRow` on a well-shaped puzzle establishes the
full postcondition: all remaining rows placed as permutations of their
words and the counters accounting exactly for the placed cells. -/
theorem assignRow_true {κ : Type} [DecidableEq κ] (P : Puzzle) (enc : Nat → Ctrs → κ)
    (hrows : RowsOK P) :
    ∀ (fuel pos : Nat) (st : SearchSt κ), MemoFalse st.memo →
      (assignRow P enc fuel pos st).1 = true →
      PostTrue P pos st (assignRow P enc fuel pos st).2 := by
  intro fuel
  induction fuel with
  | zero => intro pos st _ htrue; simp [assignRow] at htrue
  | succ n ih =>
    intro pos st hm htrue
    rw [assignRow] at htrue ⊢
    by_cases h : pos < 16
    · rw [if_pos h] at htrue ⊢
      rcases hmf : mfind st.memo (enc pos st.ctrs) with _ | b
      · rw [hmf] at htrue
        rcases hc : tryCols (fun s => assignRow P enc n (pos + 1) s) P pos
            (P.rowAt pos) (P.xIsBX (P.rowAt pos)) colList st with ⟨b, st2⟩
        try rw [hc]
        try rw [hc] at htrue
        cases b with
        | false => simp at htrue
        | true =>
          simp only at htrue ⊢
          have hex := tryCols_true (fun s => assignRow P enc n (pos + 1) s) P pos
            (P.rowAt pos) (P.xIsBX (P.rowAt pos))
            (fun s => assignRow_false_ctrs P enc n (pos + 1) s)
            (fun s => assignRow_false_memo P enc n (pos + 1) s)
            (fun s r' h' => assignRow_arr P enc n (pos + 1) s r' h')
            (fun s hm' ht' => ih (pos + 1) s hm' ht')
            (rowAt_not_mem_drop_succ P pos h) colList st hm (by rw [hc])
          rw [hc] at hex
          obtain ⟨colX, p3, hp3, hcp⟩ := hex
          exact postTrue_of_cPost P pos h hrows colX p3 hp3 st st2 hcp
      · rw [hmf] at htrue
        simp only at htrue
        rw [mfind_memoFalse st.memo hm (enc pos st.ctrs) b hmf] at htrue
        cases htrue
    · rw [if_neg h] at htrue ⊢
      have hnil : dropRows P pos = [] := dropRows_eq_nil P pos (by omega)
      refine ⟨fun r _ => rfl, ?_, ?_, ?_⟩
      · intro r hr; rw [hnil] at hr; cases hr
      · intro c
        rw [hnil]
        refine ⟨?_, ?_, ?_⟩ <;> simp [countCol]
      · exact (finalCheck_eq_true_iff st.ctrs).mp htrue

/-! ### Well-formed inputs: one marked word per line (groundwork for C1) -/

/-- A well-formed instance per the spec's Row definition: it passes
validation and every line holds exactly one marked (`AX`/`BX`) token. -/
def WellFormed (input : List String) : Prop :=
  WellTokenized input ∧
    ∀ line ∈ input, (tokenize line).countP (fun s => s = "AX" || s = "BX") = 1

theorem wordOf_isX (s : String) (h : isLabel s = true) :
    (wordOf s).isX = (s = "AX" || s = "BX") := by
  unfold isLabel at h
  have h4 : s = "A" ∨ s = "B" ∨ s = "AX" ∨ s = "BX" := by
    simpa [Bool.or_eq_true, decide_eq_true_eq, or_assoc] using h
  rcases h4 with rfl | rfl | rfl | rfl <;> decide

theorem countX_map_wordOf (toks : List String) (hlab : ∀ w ∈ toks, isLabel w = true) :
    (toks.map wordOf).countP (·.isX)
      = toks.countP (fun s => s = "AX" || s = "BX") := by
  rw [List.countP_map]
  exact List.countP_congr fun s hs => by
    simp only [Function.comp_apply, wordOf_isX s (hlab s hs)]

theorem sortRow_toList (ws : List Word) (hlen : ws.length = 4) :
    (sortRow ws).toList
      = List.insertionSort (fun a b => a.orderRank ≤ b.orderRank) ws := by
  have hlen' : (List.insertionSort (fun a b => a.orderRank ≤ b.orderRank) ws).length = 4 := by
    rw [(List.perm_insertionSort _ _).length_eq, hlen]
  rcases hl : List.insertionSort (fun a b => a.orderRank ≤ b.orderRank) ws with
    _ | ⟨a, _ | ⟨b, _ | ⟨c, _ | ⟨d, _ | ⟨e, tl⟩⟩⟩⟩⟩
  · rw [hl] at hlen'; simp only [List.length_nil] at hlen'; exfalso; omega
  · rw [hl] at hlen'; simp only [List.length_cons, List.length_nil] at hlen'; exfalso; omega
  · rw [hl] at hlen'; simp only [List.length_cons, List.length_nil] at hlen'; exfalso; omega
  · rw [hl] at hlen'; simp only [List.length_cons, List.length_nil] at hlen'; exfalso; omega
  · unfold sortRow
    rw [hl]
    rfl
  · rw [hl] at hlen'; simp only [List.length_cons, List.length_nil] at hlen'; exfalso; omega

theorem sortRow_perm (ws : List Word) (hlen : ws.length = 4) :
    (sortRow ws).toList.Perm ws := by
  rw [sortRow_toList ws hlen]
  exact List.perm_insertionSort _ _

theorem sortRow_one_X (ws : List Word) (hlen : ws.length = 4)
    (hx : ws.countP (·.isX) = 1) :
    ((sortRow ws).get 0).isX = true ∧
      ∀ k : Fin 4, k ≠ 0 → ((sortRow ws).get k).isX = false := by
  have htot : IsTotal Word (fun a b => a.orderRank ≤ b.orderRank) :=
    ⟨fun a b => Nat.le_total _ _⟩
  have htrans : IsTrans Word (fun a b => a.orderRank ≤ b.orderRank) :=
    ⟨fun a b c => Nat.le_trans⟩
  have ht := sortRow_toList ws hlen
  have hsorted : List.Pairwise (fun a b => a.orderRank ≤ b.orderRank)
      (sortRow ws).toList := by
    rw [ht]
    exact @List.sorted_insertionSort Word _ _ htot htrans ws
  have hcnt : (sortRow ws).toList.countP (·.isX) = 1 := by
    rw [ht, (List.perm_insertionSort _ _).countP_eq, hx]
  rw [show (sortRow ws).toList
    = [(sortRow ws).w0, (sortRow ws).w1, (sortRow ws).w2, (sortRow ws).w3] from rfl]
    at hsorted hcnt
  have h1 := List.pairwise_cons.mp hsorted
  have h2 := List.pairwise_cons.mp h1.2
  have h3 := List.pairwise_cons.mp h2.2
  obtain ⟨ha, hb, hc, hd⟩ := sorted_one_X (sortRow ws).w0 (sortRow ws).w1
    (sortRow ws).w2 (sortRow ws).w3
    (h1.1 _ (by simp)) (h2.1 _ (by simp)) (h3.1 _ (by simp)) hcnt
  refine ⟨ha, ?_⟩
  intro k hk
  fin_cases k
  · exact absurd rfl hk
  · exact hb
  · exact hc
  · exact hd

theorem parse_rows_eq (input : List String) (P : Puzzle)
    (hP : parsePuzzle input = .ok P) (i : Fin 16) :
    P.rows i = sortRow ((tokenize (input.getD (i : Nat) "")).map wordOf) := by
  obtain ⟨h16, htl⟩ := (parsePuzzle_ok_iff input).mp ⟨P, hP⟩
  have h4 : (input.map tokenize).all (fun t => t.length = 4) = true :=
    (all_map_len_iff input).mpr fun line hl => (htl line hl).1
  have hlab : (input.map tokenize).all (fun t => t.all isLabel) = true :=
    (all_map_label_iff input).mpr fun line hl => (htl line hl).2
  unfold parsePuzzle at hP
  rw [if_pos h16, if_pos h4, if_pos hlab] at hP
  injection hP with hP
  have hPr : P.rows = fun j : Fin 16 =>
      sortRow (((input.map tokenize).map (fun t => t.map wordOf)).getD (j : Nat) []) := by
    rw [← hP]
  rw [hPr]
  have hi1 : (i : Nat) < input.length := by rw [h16]; exact i.isLt
  have hi2 : (i : Nat) < ((input.map tokenize).map (fun t => t.map wordOf)).length := by
    simpa using hi1
  show sortRow (((input.map tokenize).map (fun t => t.map wordOf)).getD (i : Nat) []) = _
  rw [List.getD_eq_getElem?_getD, List.getElem?_eq_getElem hi2, Option.getD_some,
    List.getElem_map, List.getElem_map, List.getD_eq_getElem?_getD,
    List.getElem?_eq_getElem hi1, Option.getD_some]

theorem rowsOK_of_parse (input : List String) (P : Puzzle)
    (hP : parsePuzzle input = .ok P)
    (hone : ∀ line ∈ input,
      (tokenize line).countP (fun s => s = "AX" || s = "BX") = 1) :
    RowsOK P := by
  obtain ⟨h16, htl⟩ := (parsePuzzle_ok_iff input).mp ⟨P, hP⟩
  intro r
  have hi1 : (r : Nat) < input.length := by rw [h16]; exact r.isLt
  have hlmem : input.getD (r : Nat) "" ∈ input := by
    rw [List.getD_eq_getElem?_getD, List.getElem?_eq_getElem hi1, Option.getD_some]
    exact List.getElem_mem hi1
  obtain ⟨hl4, hlabs⟩ := htl _ hlmem
  have hws4 : ((tokenize (input.getD (r : Nat) "")).map wordOf).length = 4 := by
    rw [List.length_map, hl4]
  have hwsX : ((tokenize (input.getD (r : Nat) "")).map wordOf).countP (·.isX) = 1 := by
    rw [countX_map_wordOf _ hlabs]
    exact hone _ hlmem
  have hrow := parse_rows_eq input P hP r
  obtain ⟨hA, hB⟩ := sortRow_one_X _ hws4 hwsX
  constructor
  · show ((P.rows r).get 0).isX = true
    rw [hrow]; exact hA
  · intro k hk
    show ((P.rows r).get k).isX = false
    rw [hrow]; exact hB k hk

instance (input : List String) : Decidable (WellFormed input) := by
  unfold WellFormed
  exact inferInstance

theorem countCol_perm (arr : Fin 16 → Fin 4 → Option Word) (rs rs' : List (Fin 16))
    (p : Option Word → Bool) (c : Fin 4) (h : rs.Perm rs') :
    countCol arr rs p c = countCol arr rs' p c := by
  unfold countCol
  rw [h.countP_eq]

theorem ofFn_get_row (row : Row) :
    (List.ofFn fun k => some (row.get k)) = row.toList.map some := by
  rw [List.ofFn_eq_map, finRange_four_eq_colList]
  rfl

theorem mem_rowOrder (P : Puzzle) (r : Fin 16) : r ∈ P.rowOrder :=
  (List.perm_insertionSort _ _).mem_iff.mpr (List.mem_finRange r)

/-- The solution-validity predicate of the spec, stated against the raw
input: every grid row is a multiset permutation of the corresponding input
line's words, every column holds exactly 4 marked cells, at least 4
flagged cells and at most 1 flagged-marked cell. -/
def ValidFor (input : List String) (g : Grid) : Prop :=
  (∀ r : Fin 16,
    (List.ofFn fun k => g r k).Perm
      (((tokenize (input.getD (r : Nat) "")).map wordOf).map some)) ∧
  (∀ c : Fin 4,
    countCol g (List.finRange 16) cellXb c = 4 ∧
    4 ≤ countCol g (List.finRange 16) cellBb c ∧
    countCol g (List.finRange 16) cellBXb c ≤ 1)

theorem solveB_ok_validFor (input : List String) (g : Grid)
    (hwf : WellFormed input) (hok : solveB input = .ok g) :
    ValidFor input g := by
  obtain ⟨hwt, hone⟩ := hwf
  obtain ⟨h16, htl⟩ := hwt
  unfold solveB solveWith at hok
  rcases hE : parsePuzzle input with e | P
  · rw [hE] at hok; cases hok
  · rw [hE] at hok
    simp only at hok
    rcases hR : runSolver P encodeStateB with ⟨b, st⟩
    rw [hR] at hok
    cases b with
    | false => simp at hok
    | true =>
      simp only at hok
      injection hok with hok
      have hrows : RowsOK P := rowsOK_of_parse input P hE hone
      have hA : assignRow P encodeStateB 17 0 (initSt Int) = (true, st) := hR
      have hpost := assignRow_true P encodeStateB hrows 17 0 (initSt Int)
        (by intro kb hkb; cases hkb) (by rw [hA])
      rw [hA] at hpost
      simp only at hpost
      obtain ⟨-, hperm, hcnt, hfin⟩ := hpost
      have hdrop : (dropRows P 0).Perm (List.finRange 16) := by
        show (P.rowOrder.drop 0).Perm _
        rw [List.drop_zero]
        exact List.perm_insertionSort _ _
      constructor
      · intro r
        have hrmem : r ∈ dropRows P 0 := by
          show r ∈ P.rowOrder.drop 0
          rw [List.drop_zero]
          exact mem_rowOrder P r
        have h1 := hperm r hrmem
        rw [← hok]
        refine h1.trans ?_
        rw [show (List.ofFn fun k => some (P.wordAt r k)) = (P.rows r).toList.map some
          from ofFn_get_row (P.rows r)]
        rw [parse_rows_eq input P hE r]
        have hi1 : (r : Nat) < input.length := by rw [h16]; exact r.isLt
        have hlmem : input.getD (r : Nat) "" ∈ input := by
          rw [List.getD_eq_getElem?_getD, List.getElem?_eq_getElem hi1, Option.getD_some]
          exact List.getElem_mem hi1
        have hws4 : ((tokenize (input.getD (r : Nat) "")).map wordOf).length = 4 := by
          rw [List.length_map, (htl _ hlmem).1]
        exact (sortRow_perm _ hws4).map some
      · intro c
        obtain ⟨hx, hbx, hb⟩ := hcnt c
        obtain ⟨hx0, hb4, hbx0⟩ := hfin c
        have hex : countCol st.arr (dropRows P 0) cellXb c
            = countCol g (List.finRange 16) cellXb c := by
          rw [hok]; exact countCol_perm g _ _ cellXb c hdrop
        have hebx : countCol st.arr (dropRows P 0) cellBXb c
            = countCol g (List.finRange 16) cellBXb c := by
          rw [hok]; exact countCol_perm g _ _ cellBXb c hdrop
        have heb : countCol st.arr (dropRows P 0) cellBb c
            = countCol g (List.finRange 16) cellBb c := by
          rw [hok]; exact countCol_perm g _ _ cellBb c hdrop
        have hi4 : (initSt Int).ctrs.xcap c = 4 := rfl
        have hi1' : (initSt Int).ctrs.bxcap c = 1 := rfl
        have hi0 : (initSt Int).ctrs.bcnt c = 0 := rfl
        refine ⟨?_, ?_, ?_⟩
        · rw [← hex]; rw [hi4] at hx; omega
        · rw [← heb]; rw [hi0] at hb; omega
        · rw [← hebx]; rw [hi1'] at hbx; omega

/-- C1: on a well-formed instance (16 lines of 4 recognized labels with
exactly one marked word per line), any grid the solver returns has every
row a multiset permutation of the corresponding input row's words, and
every column holds exactly 4 marked (`AX`/`BX`) cells, at least 4 flagged
(`B`/`BX`) cells and at most 1 flagged-marked (`BX`) cell. -/
theorem solveB_ok_valid (input : List String) (g : Grid)
    (hwf : WellFormed input) (hok : solveB input = .ok g) :
    (∀ r : Fin 16,
      (List.ofFn fun k => g r k).Perm
        (((tokenize (input.getD (r : Nat) "")).map wordOf).map some)) ∧
    (∀ c : Fin 4,
      countCol g (List.finRange 16) cellXb c = 4 ∧
      4 ≤ countCol g (List.finRange 16) cellBb c ∧
      countCol g (List.finRange 16) cellBXb c ≤ 1) :=
  solveB_ok_validFor input g hwf hok

/-- A concrete solvable well-formed instance. -/
def inputAllB : List String := List.replicate 16 "AX B B B"

/-- The grid the solver returns on `inputAllB`. -/
def gridAllB : Grid :=
  match solveB inputAllB with
  | .ok g => g
  | .error _ => fun _ _ => none

theorem solveB_ok_valid_w :
    (∀ r : Fin 16,
      (List.ofFn fun k => gridAllB r k).Perm
        (((tokenize (inputAllB.getD (r : Nat) "")).map wordOf).map some)) ∧
    (∀ c : Fin 4,
      countCol gridAllB (List.finRange 16) cellXb c = 4 ∧
      4 ≤ countCol gridAllB (List.finRange 16) cellBb c ∧
      countCol gridAllB (List.finRange 16) cellBXb c ≤ 1) :=
  solveB_ok_valid inputAllB gridAllB (by decide) (by decide)

/-! ### Double counting of grid cells (groundwork for C4) -/

theorem ofFn_four {α : Type} (f : Fin 4 → α) : List.ofFn f = [f 0, f 1, f 2, f 3] := by
  rw [List.ofFn_eq_map, finRange_four_eq_colList]
  rfl

/-- Number of cells of row `r` satisfying `p`, column by column. -/
def rowPCount (g : Grid) (p : Option Word → Bool) (r : Fin 16) : Int :=
  (if p (g r 0) then 1 else 0) + (if p (g r 1) then 1 else 0)
    + (if p (g r 2) then 1 else 0) + (if p (g r 3) then 1 else 0)

theorem countP_four (p : Option Word → Bool) (a b c d : Option Word) :
    ((([a, b, c, d].countP p : Nat)) : Int)
      = (if p a then 1 else 0) + (if p b then 1 else 0)
        + (if p c then 1 else 0) + (if p d then 1 else 0) := by
  rcases ha : p a <;> rcases hb : p b <;> rcases hc : p c <;> rcases hd : p d <;>
    simp [List.countP_cons, ha, hb, hc, hd]

theorem rowPCount_eq_countP (g : Grid) (p : Option Word → Bool) (r : Fin 16) :
    rowPCount g p r = (((List.ofFn fun k => g r k).countP p : Nat) : Int) := by
  rw [ofFn_four, countP_four]
  rfl

theorem colSum_eq_rowSum (g : Grid) (p : Option Word → Bool) :
    ∀ rs : List (Fin 16),
      countCol g rs p 0 + countCol g rs p 1 + countCol g rs p 2 + countCol g rs p 3
        = (rs.map (rowPCount g p)).sum := by
  intro rs
  induction rs with
  | nil => simp [countCol]
  | cons r rest ih =>
    rw [countCol_cons, countCol_cons, countCol_cons, countCol_cons,
      List.map_cons, List.sum_cons, ← ih]
    unfold rowPCount
    ring

/-- For any grid whose rows permute the input rows, the four column counts
of `p`-cells sum to the input-level total of `p`-satisfying words. -/
theorem validFor_rowSum (input : List String) (g : Grid)
    (h1 : ∀ r : Fin 16,
      (List.ofFn fun k => g r k).Perm
        (((tokenize (input.getD (r : Nat) "")).map wordOf).map some))
    (p : Option Word → Bool) :
    countCol g (List.finRange 16) p 0 + countCol g (List.finRange 16) p 1
      + countCol g (List.finRange 16) p 2 + countCol g (List.finRange 16) p 3
    = ((List.finRange 16).map (fun (r : Fin 16) =>
        ((((((tokenize (input.getD (r : Nat) "")).map wordOf).map some).countP p
          : Nat)) : Int))).sum := by
  rw [colSum_eq_rowSum g p (List.finRange 16)]
  congr 1
  refine List.map_congr_left fun r _ => ?_
  rw [rowPCount_eq_countP, (h1 r).countP_eq]

/-- A 16-line instance holding seventeen marked words (fifteen `AX B B B`
lines and one `AX AX B B` line).  It passes validation, but no grid built
from its rows can have exactly four marked cells in each column. -/
def inputX17 : List String := List.replicate 15 "AX B B B" ++ ["AX AX B B"]

theorem inputX17_unsat : ¬ ∃ g : Grid, ValidFor inputX17 g := by
  rintro ⟨g, h1, h2⟩
  have hs := validFor_rowSum inputX17 g h1 cellXb
  rw [(h2 0).1, (h2 1).1, (h2 2).1, (h2 3).1] at hs
  have he : ((List.finRange 16).map (fun (r : Fin 16) =>
      ((((((tokenize (inputX17.getD (r : Nat) "")).map wordOf).map some).countP cellXb
        : Nat)) : Int))).sum = 17 := by decide
  rw [he] at hs
  norm_num at hs

/-- A well-formed instance with no flagged word at all: unsatisfiable,
since every column needs at least four flagged cells. -/
def inputNoB : List String := List.replicate 16 "AX A A A"

theorem inputNoB_unsat : ¬ ∃ g : Grid, ValidFor inputNoB g := by
  rintro ⟨g, h1, h2⟩
  have hs := validFor_rowSum inputNoB g h1 cellBb
  have he : ((List.finRange 16).map (fun (r : Fin 16) =>
      ((((((tokenize (inputNoB.getD (r : Nat) "")).map wordOf).map some).countP cellBb
        : Nat)) : Int))).sum = 0 := by decide
  rw [he] at hs
  have h0 := (h2 0).2.1
  have hb1 := (h2 1).2.1
  have hb2 := (h2 2).2.1
  have hb3 := (h2 3).2.1
  omega

/-- The no-solution direction under the spec's Row well-formedness: on an
instance of 16 lines of 4 recognized labels with exactly one marked word
per line, if no grid satisfies all row-permutation and column-count
constraints then the bit-packed solver terminates with the `NoSolution`
outcome, never a grid and never any other error. -/
theorem solveB_unsat_noSolution (input : List String) (hwf : WellFormed input)
    (hunsat : ¬ ∃ g : Grid, ValidFor input g) :
    solveB input = .error .noSolution := by
  rcases hres : solveB input with e | g
  · cases e with
    | noSolution => rfl
    | malformed =>
      exfalso
      obtain ⟨P, hP⟩ := (parsePuzzle_ok_iff input).mpr hwf.1
      unfold solveB solveWith at hres
      rw [hP] at hres
      simp only at hres
      rcases hR : runSolver P encodeStateB with ⟨b, st⟩
      rw [hR] at hres
      cases b with
      | true => simp at hres
      | false => simp at hres
  · exact absurd ⟨g, solveB_ok_validFor input g hwf hres⟩ hunsat

theorem solveB_unsat_noSolution_w : solveB inputNoB = .error .noSolution :=
  solveB_unsat_noSolution inputNoB (by decide) inputNoB_unsat

/-- The grid the solver returns on the seventeen-marked-word instance. -/
def gridX17 : Grid :=
  match solveB inputX17 with
  | .ok g => g
  | .error _ => fun _ _ => none

/-- C4: the code violates the claim on `inputX17`, an instance that is
well-formed in the claim's sense (16 lines, 4 recognized labels per line)
and admits no satisfying assignment - no grid built from its rows can have
exactly four marked cells per column, since it holds seventeen marked
words - yet the solver returns a grid instead of terminating with the
`NoSolution` outcome: it only accounts the first word of each row in
canonical order as that row's marked word and never validates the
marked-word count. -/
theorem unsat_not_noSolution_counterexample :
    WellTokenized inputX17 ∧
      (¬ ∃ g : Grid, ValidFor inputX17 g) ∧
      solveB inputX17 = .ok gridX17 ∧
      ¬ solveB inputX17 = .error .noSolution :=
  ⟨by decide, inputX17_unsat, by decide, by decide⟩

end PuzzleBB
